import Mathlib

set_option autoImplicit false

/-!
Verification of the usage-data reconciliation engine
(`claude_reconcile.py`, class `UsageDataReconciler`).

The engine is embedded shallowly: Python JSON values become the inductive
type `JVal`, Python dicts become insertion-ordered association lists, and
each method of the reconciler becomes a Lean function over explicit state.
Sources of environment nondeterminism are threaded as parameters:
`now` (the ISO string `datetime.now(timezone.utc).isoformat()` would
return), `ts` (the artifact-filename timestamp), and `pyHash` (the
process-wide salted string hash used by the built-in `hash()`).

Modelling conventions, used throughout:
* JSON numbers are modelled as integers (`Int`); the claims under
  verification do not depend on float-specific behaviour, and the spec
  types tokens as integers.
* Arithmetic on token/cost fields uses `intOf`, which reads numeric
  values and returns 0 for non-numeric ones; in CPython a non-numeric
  value in those positions raises `TypeError` and aborts the whole run,
  a behaviour outside this model.
* File discovery (`_discover_json_files`) is pure filesystem I/O; a run
  here takes the discovered file list (with the attributes the loader
  reads) as input.
-/

/-- A JSON-compatible Python value, as loaded by `json.load`. -/
inductive JVal where
  | jnull
  | jbool (b : Bool)
  | jint (n : Int)
  | jstr (s : String)
  | jlist (elems : List JVal)
  | jdict (entries : List (String × JVal))
deriving Repr, Inhabited

mutual

/-- Python `==` on JSON values (structural equality). -/
def JVal.beq : JVal → JVal → Bool
  | .jnull, .jnull => true
  | .jbool a, .jbool b => a == b
  | .jint a, .jint b => a == b
  | .jstr a, .jstr b => a == b
  | .jlist a, .jlist b => JVal.beqList a b
  | .jdict a, .jdict b => JVal.beqDict a b
  | _, _ => false

def JVal.beqList : List JVal → List JVal → Bool
  | [], [] => true
  | a :: as, b :: bs => JVal.beq a b && JVal.beqList as bs
  | _, _ => false

def JVal.beqDict : List (String × JVal) → List (String × JVal) → Bool
  | [], [] => true
  | (ka, va) :: as, (kb, vb) :: bs => ka == kb && JVal.beq va vb && JVal.beqDict as bs
  | _, _ => false

end

instance : BEq JVal := ⟨JVal.beq⟩

mutual

theorem JVal.beq_refl : ∀ a : JVal, JVal.beq a a = true
  | .jnull => rfl
  | .jbool _ => by simp [JVal.beq]
  | .jint _ => by simp [JVal.beq]
  | .jstr _ => by simp [JVal.beq]
  | .jlist xs => by rw [JVal.beq]; exact JVal.beqList_refl xs
  | .jdict xs => by rw [JVal.beq]; exact JVal.beqDict_refl xs

theorem JVal.beqList_refl : ∀ l : List JVal, JVal.beqList l l = true
  | [] => rfl
  | x :: xs => by
    rw [JVal.beqList]
    simp only [Bool.and_eq_true]
    exact ⟨JVal.beq_refl x, JVal.beqList_refl xs⟩

theorem JVal.beqDict_refl : ∀ l : List (String × JVal), JVal.beqDict l l = true
  | [] => rfl
  | (k, v) :: xs => by
    rw [JVal.beqDict]
    simp only [Bool.and_eq_true]
    exact ⟨⟨by simp, JVal.beq_refl v⟩, JVal.beqDict_refl xs⟩

end

mutual

theorem JVal.eq_of_beq : ∀ a b : JVal, JVal.beq a b = true → a = b
  | .jnull, .jnull, _ => rfl
  | .jbool _, .jbool _, h => by rw [JVal.beq] at h; simp at h; rw [h]
  | .jint _, .jint _, h => by rw [JVal.beq] at h; simp at h; rw [h]
  | .jstr _, .jstr _, h => by rw [JVal.beq] at h; simp at h; rw [h]
  | .jlist a, .jlist b, h => by
    rw [JVal.beq] at h
    rw [JVal.eqList_of_beq a b h]
  | .jdict a, .jdict b, h => by
    rw [JVal.beq] at h
    rw [JVal.eqDict_of_beq a b h]
  | .jnull, .jbool _, h => nomatch h
  | .jnull, .jint _, h => nomatch h
  | .jnull, .jstr _, h => nomatch h
  | .jnull, .jlist _, h => nomatch h
  | .jnull, .jdict _, h => nomatch h
  | .jbool _, .jnull, h => nomatch h
  | .jbool _, .jint _, h => nomatch h
  | .jbool _, .jstr _, h => nomatch h
  | .jbool _, .jlist _, h => nomatch h
  | .jbool _, .jdict _, h => nomatch h
  | .jint _, .jnull, h => nomatch h
  | .jint _, .jbool _, h => nomatch h
  | .jint _, .jstr _, h => nomatch h
  | .jint _, .jlist _, h => nomatch h
  | .jint _, .jdict _, h => nomatch h
  | .jstr _, .jnull, h => nomatch h
  | .jstr _, .jbool _, h => nomatch h
  | .jstr _, .jint _, h => nomatch h
  | .jstr _, .jlist _, h => nomatch h
  | .jstr _, .jdict _, h => nomatch h
  | .jlist _, .jnull, h => nomatch h
  | .jlist _, .jbool _, h => nomatch h
  | .jlist _, .jint _, h => nomatch h
  | .jlist _, .jstr _, h => nomatch h
  | .jlist _, .jdict _, h => nomatch h
  | .jdict _, .jnull, h => nomatch h
  | .jdict _, .jbool _, h => nomatch h
  | .jdict _, .jint _, h => nomatch h
  | .jdict _, .jstr _, h => nomatch h
  | .jdict _, .jlist _, h => nomatch h

theorem JVal.eqList_of_beq : ∀ a b : List JVal, JVal.beqList a b = true → a = b
  | [], [], _ => rfl
  | [], _ :: _, h => nomatch h
  | _ :: _, [], h => nomatch h
  | a :: as, b :: bs, h => by
    rw [JVal.beqList] at h
    simp only [Bool.and_eq_true] at h
    rw [JVal.eq_of_beq a b h.1, JVal.eqList_of_beq as bs h.2]

theorem JVal.eqDict_of_beq : ∀ a b : List (String × JVal), JVal.beqDict a b = true → a = b
  | [], [], _ => rfl
  | [], _ :: _, h => nomatch h
  | _ :: _, [], h => nomatch h
  | (ka, va) :: as, (kb, vb) :: bs, h => by
    rw [JVal.beqDict] at h
    simp only [Bool.and_eq_true] at h
    have hk : ka = kb := by simpa using h.1.1
    rw [hk, JVal.eq_of_beq va vb h.1.2, JVal.eqDict_of_beq as bs h.2]

end

theorem JVal.beq_iff_eq (a b : JVal) : JVal.beq a b = true ↔ a = b :=
  ⟨JVal.eq_of_beq a b, fun h => h ▸ JVal.beq_refl a⟩

instance : DecidableEq JVal := fun a b =>
  decidable_of_iff (JVal.beq a b = true) (JVal.beq_iff_eq a b)

/-- Python truthiness (`bool(v)`): `None`, `False`, `0`, `""`, `[]` and
`{}` are falsy, everything else truthy. -/
def JVal.truthy : JVal → Bool
  | .jnull => false
  | .jbool b => b
  | .jint n => n != 0
  | .jstr s => !s.isEmpty
  | .jlist xs => !xs.isEmpty
  | .jdict xs => !xs.isEmpty

/-- Python `a or b`: the first operand when truthy, otherwise the second. -/
def pyOr (a b : JVal) : JVal := if a.truthy then a else b

/-- Numeric reading of a value (`Int` model of Python numbers; `bool` is
an `int` subclass in Python). Non-numeric values read as 0, see the
module comment. -/
def intOf : JVal → Int
  | .jint n => n
  | .jbool b => if b then 1 else 0
  | _ => 0

mutual

/-- Python `repr` of a JSON value (string quoting written via `\x27`). -/
def JVal.pyRepr : JVal → String
  | .jnull => "None"
  | .jbool true => "True"
  | .jbool false => "False"
  | .jint n => toString n
  | .jstr s => "\x27" ++ s ++ "\x27"
  | .jlist xs => "[" ++ JVal.pyReprList xs ++ "]"
  | .jdict xs => "\x7b" ++ JVal.pyReprDict xs ++ "\x7d"

def JVal.pyReprList : List JVal → String
  | [] => ""
  | [x] => JVal.pyRepr x
  | x :: xs => JVal.pyRepr x ++ ", " ++ JVal.pyReprList xs

def JVal.pyReprDict : List (String × JVal) → String
  | [] => ""
  | [(k, v)] => "\x27" ++ k ++ "\x27: " ++ JVal.pyRepr v
  | (k, v) :: xs => "\x27" ++ k ++ "\x27: " ++ JVal.pyRepr v ++ ", " ++ JVal.pyReprDict xs

end

/-- Python `str` of a JSON value: the string itself for strings,
otherwise its `repr`. -/
def JVal.pyStr : JVal → String
  | .jstr s => s
  | v => JVal.pyRepr v

/-- Python type name of a JSON value, for error messages. -/
def JVal.pyTypeName : JVal → String
  | .jnull => "NoneType"
  | .jbool _ => "bool"
  | .jint _ => "int"
  | .jstr _ => "str"
  | .jlist _ => "list"
  | .jdict _ => "dict"

def JVal.isDict : JVal → Bool
  | .jdict _ => true
  | _ => false

/-- A Python dict of JSON values: an insertion-ordered association list
with (by construction) unique keys. -/
abbrev PyDict := List (String × JVal)

/-- `d.get(k)` / `k in d`: first entry with the given key. -/
def PyDict.get? : PyDict → String → Option JVal
  | [], _ => none
  | (k₀, v) :: rest, k => if k₀ = k then some v else PyDict.get? rest k

/-- `d.get(k, default)`. -/
def PyDict.getD (d : PyDict) (k : String) (v : JVal) : JVal := (PyDict.get? d k).getD v

/-- `k in d`. -/
def PyDict.hasKey (d : PyDict) (k : String) : Bool := (PyDict.get? d k).isSome

/-- `d[k] = v`: replace in place when the key exists, else append. -/
def PyDict.set : PyDict → String → JVal → PyDict
  | [], k, v => [(k, v)]
  | (k₀, v₀) :: rest, k, v =>
    if k₀ = k then (k₀, v) :: rest else (k₀, v₀) :: PyDict.set rest k v

/-! ## Timestamps (`_parse_timestamp` and `datetime` helpers) -/

def isLeapYear (y : Int) : Bool := y % 4 == 0 && (y % 100 != 0 || y % 400 == 0)

def daysInMonth (y : Int) (m : Nat) : Nat :=
  if m == 2 then (if isLeapYear y then 29 else 28)
  else if m == 4 || m == 6 || m == 9 || m == 11 then 30 else 31

/-- Proleptic-Gregorian date of a day count relative to 1970-01-01
(Howard Hinnant's `civil_from_days`). -/
def civilFromDays (z0 : Int) : Int × Nat × Nat :=
  let z := z0 + 719468
  let era := z.ediv 146097
  let doe := (z - era * 146097).toNat
  let yoe := (doe - doe / 1460 + doe / 36524 - doe / 146096) / 365
  let doy := doe - (365 * yoe + yoe / 4 - yoe / 100)
  let mp := (5 * doy + 2) / 153
  let d := doy - (153 * mp + 2) / 5 + 1
  let m := if mp < 10 then mp + 3 else mp - 9
  ((yoe : Int) + era * 400 + (if m ≤ 2 then 1 else 0), m, d)

def pad2 (n : Nat) : String := if n < 10 then "0" ++ toString n else toString n

def pad4 (y : Int) : String :=
  if y < 0 then toString y
  else
    let s := toString y
    if 4 ≤ s.length then s
    else String.mk (List.replicate (4 - s.length) (Char.ofNat 48)) ++ s

/-- `datetime(...,tzinfo=utc).isoformat()` for whole seconds. -/
def isoOfParts (y : Int) (mo d h mi se : Nat) : String :=
  pad4 y ++ "-" ++ pad2 mo ++ "-" ++ pad2 d ++ "T" ++ pad2 h ++ ":" ++ pad2 mi ++
    ":" ++ pad2 se ++ "+00:00"

/-- `datetime.fromtimestamp(t, tz=timezone.utc).isoformat()` (integral model). -/
def unixToIso (t : Int) : String :=
  let c := civilFromDays (t.ediv 86400)
  let secs := (t.emod 86400).toNat
  isoOfParts c.1 c.2.1 c.2.2 (secs / 3600) (secs / 60 % 60) (secs % 60)

/-- `str.split(sep)` for a one-character separator: split on every
occurrence, keeping empty pieces (kernel-reducible replacement for
`String.splitOn`). -/
def splitOnChar (c : Char) : List Char → List (List Char)
  | [] => [[]]
  | x :: xs =>
    match splitOnChar c xs, decide (x = c) with
    | r, true => [] :: r
    | [], false => [[x]]
    | y :: ys, false => (x :: y) :: ys

/-- The digits of a numeral, read as a `Nat` (`none` when empty or
containing a non-digit). -/
def digitsToNat? (l : List Char) : Option Nat :=
  if !l.isEmpty && l.all Char.isDigit then
    some (l.foldl (fun acc c => acc * 10 + (c.toNat - 48)) 0)
  else none

/-- One numeric field of a `strptime` pattern: 1 to `maxLen` digits. -/
def parseField (maxLen : Nat) (l : List Char) : Option Nat :=
  if l.length ≤ maxLen then digitsToNat? l else none

def validDate (y : Int) (mo d : Nat) : Bool :=
  1 ≤ mo && mo ≤ 12 && 1 ≤ d && d ≤ daysInMonth y mo

def validTime (h mi se : Nat) : Bool := h ≤ 23 && mi ≤ 59 && se ≤ 59

/-- `strptime(s, "%Y-%m-%d")` fragment: year, month, day. -/
def parseDatePart (l : List Char) : Option (Int × Nat × Nat) :=
  match splitOnChar (Char.ofNat 45) l with
  | [ys, ms, ds] =>
    match parseField 4 ys, parseField 2 ms, parseField 2 ds with
    | some y, some mo, some d =>
      if validDate (y : Int) mo d then some ((y : Int), mo, d) else none
    | _, _, _ => none
  | _ => none

/-- `"%H:%M:%S"` fragment: hour, minute, second. -/
def parseTimePart (l : List Char) : Option (Nat × Nat × Nat) :=
  match splitOnChar (Char.ofNat 58) l with
  | [hs, ms, ss] =>
    match parseField 2 hs, parseField 2 ms, parseField 2 ss with
    | some h, some mi, some se =>
      if validTime h mi se then some (h, mi, se) else none
    | _, _, _ => none
  | _ => none

/-- `strptime` against `"%Y-%m-%d %H:%M:%S"`, rendered back via
`dt.replace(tzinfo=timezone.utc).isoformat()`. -/
def parseFmtYmdHms (l : List Char) : Option String :=
  match splitOnChar (Char.ofNat 32) l with
  | [dp, tp] =>
    match parseDatePart dp, parseTimePart tp with
    | some (y, mo, d), some (h, mi, se) => some (isoOfParts y mo d h mi se)
    | _, _ => none
  | _ => none

/-- `strptime` against `"%Y-%m-%d"`. -/
def parseFmtYmd (l : List Char) : Option String :=
  (parseDatePart l).map (fun c => isoOfParts c.1 c.2.1 c.2.2 0 0 0)

/-- `strptime` against `"%d/%m/%Y %H:%M:%S"`. -/
def parseFmtDmyHms (l : List Char) : Option String :=
  match splitOnChar (Char.ofNat 32) l with
  | [dp, tp] =>
    match splitOnChar (Char.ofNat 47) dp with
    | [ds, ms, ys] =>
      match parseField 2 ds, parseField 2 ms, parseField 4 ys, parseTimePart tp with
      | some d, some mo, some y, some (h, mi, se) =>
        if validDate (y : Int) mo d then some (isoOfParts (y : Int) mo d h mi se) else none
      | _, _, _, _ => none
    | _ => none
  | _ => none

/-- The fixed list of non-`T` formats tried by `_parse_timestamp`,
in source order; the first success wins. -/
def tryFormats (s : String) : Option String :=
  match parseFmtYmdHms s.data with
  | some r => some r
  | none =>
    match parseFmtYmd s.data with
    | some r => some r
    | none => parseFmtDmyHms s.data

/-- `_parse_timestamp`: strings containing a `T` pass through verbatim,
other strings are tried against the fixed formats, numbers are read as
Unix timestamps (`bool` being an `int` subclass), and everything else
falls back to `now`. -/
def parseTimestamp (now : String) (v : JVal) : String :=
  match v with
  | .jstr s =>
    if s.data.contains (Char.ofNat 84) then s
    else
      match tryFormats s with
      | some r => r
      | none => now
  | .jint n => unixToIso n
  | .jbool b => unixToIso (if b then 1 else 0)
  | _ => now

/-- Whether a string starts with an underscore (`s.startswith(chr(95))`),
via the head character so that the kernel can evaluate it. -/
def startsWithUnderscore (s : String) : Bool :=
  match s.data with
  | c :: _ => c == Char.ofNat 95
  | [] => false

/-! ## Record normalizer (`_normalize_session`, `_extract_sessions`) -/

def idFieldAliases : List String := ["session_id", "id", "conversation_id", "uuid"]

def timestampFieldAliases : List String := ["timestamp", "created_at", "date", "start_time"]

/-- The `for field in ...: if field in session: ...; break` probing
pattern: value of the first alias present. -/
def firstPresent (s : PyDict) : List String → Option JVal
  | [] => none
  | f :: fs =>
    match PyDict.get? s f with
    | some v => some v
    | none => firstPresent s fs

/-- The final loop of `_normalize_session`: preserve each source field
whose key is neither already mapped nor underscore-prefixed. -/
def preserveExtras (session : PyDict) (n : PyDict) : PyDict :=
  session.foldl
    (fun n kv =>
      if !PyDict.hasKey n kv.1 && !startsWithUnderscore kv.1 then PyDict.set n kv.1 kv.2
      else n)
    n

/-- The mapped-field portion of `_normalize_session`: the statements
from `normalized = {}` up to the `title` assignment, given the value
`idv` found for the id alias probe. -/
def normalizedCore (now : String) (session : PyDict) (idv : JVal) : PyDict :=
  let n : PyDict := PyDict.set [] "session_id" (JVal.jstr idv.pyStr)
    let n :=
      match firstPresent session timestampFieldAliases with
      | some tv => PyDict.set n "timestamp" (JVal.jstr (parseTimestamp now tv))
      | none => n
    let n := PyDict.set n "input_tokens"
      (pyOr (pyOr (pyOr (PyDict.getD session "input_tokens" (JVal.jint 0))
                        (PyDict.getD session "prompt_tokens" (JVal.jint 0)))
                  (PyDict.getD session "inputs" (JVal.jint 0)))
            (JVal.jint 0))
    let n := PyDict.set n "output_tokens"
      (pyOr (pyOr (pyOr (PyDict.getD session "output_tokens" (JVal.jint 0))
                        (PyDict.getD session "completion_tokens" (JVal.jint 0)))
                  (PyDict.getD session "outputs" (JVal.jint 0)))
            (JVal.jint 0))
    let n := PyDict.set n "total_cost"
      (pyOr (pyOr (pyOr (PyDict.getD session "total_cost" (JVal.jint 0))
                        (PyDict.getD session "cost" (JVal.jint 0)))
                  (PyDict.getD session "price" (JVal.jint 0)))
            (JVal.jint 0))
    let n := PyDict.set n "model"
      (pyOr (pyOr (pyOr (PyDict.getD session "model" JVal.jnull)
                        (PyDict.getD session "model_name" JVal.jnull))
                  (PyDict.getD session "model_id" JVal.jnull))
            (JVal.jstr "unknown"))
    let n := PyDict.set n "project"
      (PyDict.getD session "project" (PyDict.getD session "project_name" JVal.jnull))
    PyDict.set n "title"
      (PyDict.getD session "title" (PyDict.getD session "conversation_title" JVal.jnull))

/-- `_normalize_session`: build the canonical record field by field, in
source statement order, then preserve unmapped non-underscore fields
verbatim. Returns `none` when no id alias is present. -/
def normalizeSession (now : String) (session : PyDict) : Option PyDict :=
  match firstPresent session idFieldAliases with
  | none => none
  | some idv => some (preserveExtras session (normalizedCore now session idv))

def JVal.isDictList : JVal → Bool
  | .jlist (x :: _) => x.isDict
  | _ => false

/-- The fallback scan of `_extract_sessions`: first value that is a
non-empty list whose first element is a dict; `[]` (the initial value of
`sessions`) when none matches. -/
def firstDictList : PyDict → JVal
  | [] => .jlist []
  | (_, v) :: rest => if v.isDictList then v else firstDictList rest

/-- The container-discovery chain of `_extract_sessions` (the
`isinstance(data, list)` branch of the source is unreachable: the caller
has already established that `data` is a dict). -/
def sessionsContainer (data : PyDict) : JVal :=
  if PyDict.hasKey data "sessions" then PyDict.getD data "sessions" JVal.jnull
  else if PyDict.hasKey data "usage_data" then PyDict.getD data "usage_data" JVal.jnull
  else if PyDict.hasKey data "conversations" then PyDict.getD data "conversations" JVal.jnull
  else if (match PyDict.get? data "data" with | some (.jlist _) => true | _ => false) then
    PyDict.getD data "data" JVal.jnull
  else firstDictList data

/-- `if not isinstance(sessions, list): sessions = [sessions]`. -/
def ensureList : JVal → List JVal
  | .jlist xs => xs
  | v => [v]

/-- `_extract_sessions`: locate the session container, wrap non-list
containers, then normalize every dict entry, dropping entries that
normalize to `None`. -/
def extractSessions (now : String) (data : PyDict) : List PyDict :=
  (ensureList (sessionsContainer data)).filterMap fun v =>
    match v with
    | .jdict s => normalizeSession now s
    | _ => none

/-! ## File discovery metadata and loader (`_load_machine_data`,
`_extract_machine_id`) -/

/-- Result of `json.load` on one file. -/
inductive ParseResult where
  | parseFailure (msg : String)
  | parsed (v : JVal)
deriving Repr, Inhabited

/-- One discovered file with the filesystem attributes the loader
consults (`stem`, parent directory name, whether it lies in a
subdirectory of the sync dir, `st_mtime`) and its parse result. -/
structure MFile where
  path : String
  stem : String
  parentName : String
  inSubdir : Bool
  mtime : Int
  content : ParseResult
deriving Repr, Inhabited

/-- `str.split(c)` on a string, kernel-reducible. -/
def pySplit (c : Char) (s : String) : List String :=
  (splitOnChar c s.data).map String.mk

def joinWith (sep : String) : List String → String
  | [] => ""
  | [x] => x
  | x :: xs => x ++ sep ++ joinWith sep xs

/-- `_extract_machine_id`. `pyHash` models the process-salted built-in
`hash()` on strings: CPython randomizes it per process (PYTHONHASHSEED),
so it is an environment parameter of a run, not a fixed function. -/
def extractMachineId (pyHash : String → Nat) (f : MFile) (data : PyDict) : JVal :=
  match PyDict.get? data "machine_id" with
  | some v => v
  | none =>
    match PyDict.get? data "hostname" with
    | some v => v
    | none =>
      let parts := pySplit (Char.ofNat 95) f.stem
      if 3 ≤ parts.length then JVal.jstr (joinWith "_" (parts.drop 2))
      else if f.inSubdir then JVal.jstr f.parentName
      else JVal.jstr ("unknown_" ++ toString (pyHash f.path % 10000))

/-- Per-machine aggregate statistics (`self.machine_stats[machine_id]`). -/
structure MachineStat where
  file : String
  sessionCount : Nat
  lastModified : String
  totalCost : Int
  totalTokens : Int
deriving Repr

/-- One entry of `self.errors`. -/
structure ErrorRec where
  file : String
  error : String
  etype : String
deriving Repr, DecidableEq

/-- One entry of `self.conflicts`. The source initializes `resolution`
to `None` and always overwrites it before appending; `""` plays the role
of that placeholder. `selectedMachine` is `none` when the source omits
the `selected_machine` key. -/
structure ConflictRec where
  sessionId : JVal
  duplicates : Nat
  machines : List JVal
  resolution : String
  selectedMachine : Option JVal
deriving Repr

/-- The reconciler's mutable state (`sessions_by_id`, `machine_stats`,
`conflicts`, `errors`). -/
structure RState where
  sessionsById : List (JVal × List PyDict)
  machineStats : List (JVal × MachineStat)
  conflicts : List ConflictRec
  errors : List ErrorRec
deriving Repr

def initState : RState := ⟨[], [], [], []⟩

/-- Dict assignment for the machine-stats map (Python dict semantics:
replace in place, keep the original key object). -/
def statSet : List (JVal × MachineStat) → JVal → MachineStat → List (JVal × MachineStat)
  | [], k, v => [(k, v)]
  | (k₀, v₀) :: rest, k, v =>
    if JVal.beq k₀ k then (k₀, v) :: rest else (k₀, v₀) :: statSet rest k v

/-- `self.sessions_by_id[session_id].append(session)` on a `defaultdict(list)`. -/
def groupAdd : List (JVal × List PyDict) → JVal → PyDict → List (JVal × List PyDict)
  | [], k, s => [(k, [s])]
  | (k₀, g) :: rest, k, s =>
    if JVal.beq k₀ k then (k₀, g ++ [s]) :: rest else (k₀, g) :: groupAdd rest k s

/-- The provenance attachment of `_load_machine_data`:
`session["_machine_id"] = ...` etc. -/
def storedOf (machineId : JVal) (f : MFile) (s : PyDict) : PyDict :=
  PyDict.set
    (PyDict.set
      (PyDict.set s "_machine_id" machineId)
      "_source_file" (JVal.jstr f.path))
    "_file_modified" (JVal.jint f.mtime)

/-- The grouping identifier
`session.get("session_id") or session.get("id")`. -/
def gidOf (s : PyDict) : JVal :=
  pyOr (PyDict.getD s "session_id" JVal.jnull) (PyDict.getD s "id" JVal.jnull)

/-- The per-session storage step of `_load_machine_data`: attach
provenance, compute the grouping id, and group the session only when
that id is truthy (otherwise the source merely logs a warning). -/
def storeSession (machineId : JVal) (f : MFile) (st : RState) (s : PyDict) : RState :=
  let s := storedOf machineId f s
  if (gidOf s).truthy then
    { st with sessionsById := groupAdd st.sessionsById (gidOf s) s }
  else st

/-- The `machine_stats[machine_id]` entry built for one loaded file:
session count, aggregate cost and aggregate tokens over the file's
normalized sessions. -/
def machineStatFor (f : MFile) (sessions : List PyDict) : MachineStat :=
  { file := f.path
    sessionCount := sessions.length
    lastModified := unixToIso f.mtime
    totalCost := (sessions.map fun s => intOf (PyDict.getD s "total_cost" (JVal.jint 0))).sum
    totalTokens := (sessions.map fun s =>
      intOf (PyDict.getD s "input_tokens" (JVal.jint 0)) +
      intOf (PyDict.getD s "output_tokens" (JVal.jint 0))).sum }

/-- The message of the exception a non-dict top level raises: lists and
strings pass the `in` checks of `_extract_machine_id` and then fail the
`isinstance` check (a `ValueError`), while `None`, booleans and numbers
already fail `"machine_id" in data` (a `TypeError`). Messages are
abbreviated, the Python quoting omitted. -/
def loadNonDictErrorMsg (d : JVal) : String :=
  match d with
  | .jlist _ => "Expected dict, got <class " ++ d.pyTypeName ++ ">"
  | .jstr _ => "Expected dict, got <class " ++ d.pyTypeName ++ ">"
  | _ => "argument of type " ++ d.pyTypeName ++ " is not iterable"

/-- `_load_machine_data`: parse failures append a `corrupt_file` error,
non-dict top levels raise before any state other than `errors` is
touched and append an `unknown_error`, and dict files record their
machine stat and store each normalized session. -/
def loadMachineData (pyHash : String → Nat) (now : String) (st : RState) (f : MFile) : RState :=
  match f.content with
  | .parseFailure msg =>
    { st with errors := st.errors ++ [⟨f.path, "JSON decode error: " ++ msg, "corrupt_file"⟩] }
  | .parsed data =>
    match data with
    | .jdict entries =>
      let machineId := extractMachineId pyHash f entries
      let sessions := extractSessions now entries
      let st := { st with
        machineStats := statSet st.machineStats machineId (machineStatFor f sessions) }
      sessions.foldl (storeSession machineId f) st
    | d =>
      { st with errors := st.errors ++ [⟨f.path, loadNonDictErrorMsg d, "unknown_error"⟩] }

/-- Step 2 of `reconcile`: load every discovered file in order. -/
def loadAll (pyHash : String → Nat) (now : String) (st : RState) (files : List MFile) : RState :=
  files.foldl (loadMachineData pyHash now) st

/-! ## Conflict resolver (`_resolve_conflict`, `_are_duplicates_identical`) -/

/-- The sort key `x["_file_modified"]` (provenance always present on
stored sessions; `jnull` reads as 0 for sessions built without it). -/
def mtimeOf (s : PyDict) : Int := intOf (PyDict.getD s "_file_modified" JVal.jnull)

/-- Stable descending insertion by modification time: an element passes
over heads with strictly greater mtime and lands before the first head
with mtime less than or equal to its own, preserving original order among
equals, exactly as `list.sort(key=..., reverse=True)`. -/
def insertByMtimeDesc (x : PyDict) : List PyDict → List PyDict
  | [] => [x]
  | y :: ys => if mtimeOf x < mtimeOf y then y :: insertByMtimeDesc x ys else x :: y :: ys

def sortByMtimeDesc : List PyDict → List PyDict
  | [] => []
  | x :: xs => insertByMtimeDesc x (sortByMtimeDesc xs)

def keyFields : List String := ["input_tokens", "output_tokens", "total_cost", "model", "timestamp"]

def agreeOnKeyFields (a b : PyDict) : Bool :=
  keyFields.all fun k => JVal.beq (PyDict.getD a k JVal.jnull) (PyDict.getD b k JVal.jnull)

/-- `_are_duplicates_identical`: fewer than two duplicates are trivially
identical; otherwise every later duplicate must agree with the first on
every key field (`.get`, so a missing field compares as `None`). -/
def areDuplicatesIdentical : List PyDict → Bool
  | [] => true
  | [_] => true
  | first :: rest => rest.all fun d => agreeOnKeyFields first d

/-- The completeness count of `_resolve_conflict`:
`sum(1 for v in dup.values() if v and not str(v).startswith(chr(95)))`.
Note that the underscore test inspects the VALUE, not the key. -/
def fieldCount (s : PyDict) : Nat :=
  ((s.map Prod.snd).filter fun v => v.truthy && !startsWithUnderscore v.pyStr).length

/-- `dup.get("input_tokens", 0) + dup.get("output_tokens", 0)`. -/
def totalTokensOf (s : PyDict) : Int :=
  intOf (PyDict.getD s "input_tokens" (JVal.jint 0)) +
    intOf (PyDict.getD s "output_tokens" (JVal.jint 0))

/-- One iteration of the most-complete-record loop; the accumulator is
`(best_duplicate, max_fields, max_tokens)`, initially `(None, 0, 0)`. -/
def bestStep (acc : Option PyDict × Nat × Int) (dup : PyDict) : Option PyDict × Nat × Int :=
  let fc := fieldCount dup
  let tt := totalTokensOf dup
  if fc > acc.2.1 || (fc == acc.2.1 && tt > acc.2.2) then (some dup, fc, tt) else acc

def bestDuplicate (dups : List PyDict) : Option PyDict :=
  (dups.foldl bestStep (none, 0, 0)).1

/-- `list(set(d["_machine_id"] for d in duplicates))`, modelled as a
first-occurrence deduplication (the set's iteration order is
unspecified; no claim inspects this order). -/
def distinctMachines (dups : List PyDict) : List JVal :=
  (dups.map fun d => PyDict.getD d "_machine_id" JVal.jnull).foldl
    (fun acc m => if acc.any (fun m₀ => JVal.beq m₀ m) then acc else acc ++ [m]) []

/-- `_resolve_conflict`: the winning duplicate together with the
Conflict record appended to `self.conflicts`. The source indexes
`duplicates[0]` after the in-place sort; callers only pass groups of two
or more, so the `headD []` default on an empty group is dead (Python
would raise `IndexError` there). -/
def resolveConflict (sessionId : JVal) (dups : List PyDict) : PyDict × ConflictRec :=
  let sorted := sortByMtimeDesc dups
  let first := sorted.headD []
  let base : ConflictRec :=
    { sessionId := sessionId
      duplicates := dups.length
      machines := distinctMachines dups
      resolution := ""
      selectedMachine := none }
  if areDuplicatesIdentical sorted then
    (first, { base with resolution := "identical_content" })
  else
    match bestDuplicate sorted with
    | some best =>
      (best, { base with resolution := "most_complete_record",
                         selectedMachine := some (PyDict.getD best "_machine_id" JVal.jnull) })
    | none =>
      (first, { base with resolution := "most_recent",
                          selectedMachine := some (PyDict.getD first "_machine_id" JVal.jnull) })

/-- One iteration of the `_reconcile_sessions` loop: groups of size one
pass through, larger groups go through conflict resolution, which also
appends one Conflict record to the state. -/
def reconcileStep (acc : List (JVal × PyDict) × RState) (kv : JVal × List PyDict) :
    List (JVal × PyDict) × RState :=
  match kv.2 with
  | [] => acc
  | [d] => (acc.1 ++ [(kv.1, d)], acc.2)
  | dups =>
    let r := resolveConflict kv.1 dups
    (acc.1 ++ [(kv.1, r.1)],
     { acc.2 with conflicts := acc.2.conflicts ++ [r.2] })

/-- `_reconcile_sessions`: reduce every group to one record, keeping the
grouping order. Empty groups never arise (`groupAdd` only creates
non-empty groups); Python would raise on one. -/
def reconcileSessions (st : RState) : List (JVal × PyDict) × RState :=
  st.sessionsById.foldl reconcileStep ([], st)

/-! ## Report generator and persistence writer -/

def bumpCount : List (String × Nat) → String → List (String × Nat)
  | [], k => [(k, 1)]
  | (k₀, n) :: rest, k =>
    if k₀ = k then (k₀, n + 1) :: rest else (k₀, n) :: bumpCount rest k

def groupErrorsByType (errors : List ErrorRec) : List (String × Nat) :=
  errors.foldl (fun acc e => bumpCount acc e.etype) []

/-- The slice of `_generate_report` the claims under verification
mention: the summary totals over the resolved mapping and the
conflict/error ledgers (per-model breakdown and date range omitted;
`round(total_cost, 4)` is the identity on the integral cost model). -/
structure Report where
  totalSessions : Nat
  totalInputTokens : Int
  totalOutputTokens : Int
  totalTokens : Int
  totalCost : Int
  conflictsTotal : Nat
  errorsTotal : Nat
  errorsByType : List (String × Nat)
deriving Repr

def generateReport (st : RState) (sessions : List (JVal × PyDict)) : Report :=
  let vals := sessions.map Prod.snd
  let tin := (vals.map fun s => intOf (PyDict.getD s "input_tokens" (JVal.jint 0))).sum
  let tout := (vals.map fun s => intOf (PyDict.getD s "output_tokens" (JVal.jint 0))).sum
  { totalSessions := sessions.length
    totalInputTokens := tin
    totalOutputTokens := tout
    totalTokens := tin + tout
    totalCost := (vals.map fun s => intOf (PyDict.getD s "total_cost" (JVal.jint 0))).sum
    conflictsTotal := st.conflicts.length
    errorsTotal := st.errors.length
    errorsByType := groupErrorsByType st.errors }

/-- One file written by `_save_reconciled_data`. -/
structure Artifact where
  name : String
deriving Repr, DecidableEq

/-- `_save_reconciled_data`: writes the three timestamped artifacts,
unconditionally. -/
def saveReconciledData (ts : String) (_sessions : List (JVal × PyDict)) (_report : Report) :
    List Artifact :=
  [⟨"reconciled_sessions_" ++ ts ++ ".json"⟩,
   ⟨"reconciliation_report_" ++ ts ++ ".json"⟩,
   ⟨"reconciliation_summary_" ++ ts ++ ".txt"⟩]

/-- `UsageDataReconciler.reconcile`: load, reconcile, report, save.
Returns the report and the artifacts written. -/
def reconcile (pyHash : String → Nat) (now ts : String) (files : List MFile) :
    Report × List Artifact :=
  let st := loadAll pyHash now initState files
  let rs := reconcileSessions st
  let report := generateReport rs.2 rs.1
  let artifacts := saveReconciledData ts rs.1 report
  (report, artifacts)

/-- `main`: parses `--dry-run` but never forwards it to the reconciler —
`reconcile()` (and with it `_save_reconciled_data`) runs unconditionally;
the flag only selects an extra printed message. -/
def mainRun (_dryRun : Bool) (pyHash : String → Nat) (now ts : String) (files : List MFile) :
    Report × List Artifact :=
  reconcile pyHash now ts files

/-- Modelled from the spec: the "most complete" count of §4.3 step 4,
"count of fields with a non-empty, non-provenance value" — provenance
fields are the underscore-prefixed KEYS (`_machine_id`, `_source_file`,
`_file_modified`; cf. the glossary and the key-based underscore test the
source itself uses in `_normalize_session`). Used to compare the spec's
selection rule with the source's value-based test in `fieldCount`. -/
def specFieldCount (s : PyDict) : Nat :=
  (s.filter fun kv => !startsWithUnderscore kv.1 && kv.2.truthy).length

example : parseTimestamp "NOW" (JVal.jstr "2024-03-05 06:07:08") = "2024-03-05T06:07:08+00:00" := by decide
example : parseTimestamp "NOW" (JVal.jstr "garbage") = "NOW" := by decide
example : parseTimestamp "NOW" (JVal.jstr "2024-02-30") = "NOW" := by decide
example : parseTimestamp "NOW" (JVal.jint 0) = "1970-01-01T00:00:00+00:00" := by decide
example : parseTimestamp "NOW" (JVal.jint 1700000000) = "2023-11-14T22:13:20+00:00" := by decide
example : parseTimestamp "NOW" JVal.jnull = "NOW" := by decide

/-! ## Association-list and normalizer lemmas -/

theorem PyDict.get?_set (d : PyDict) (k k' : String) (v : JVal) :
    PyDict.get? (PyDict.set d k' v) k = if k' = k then some v else PyDict.get? d k := by
  induction d with
  | nil =>
    simp only [PyDict.set, PyDict.get?]
  | cons kv rest ih =>
    obtain ⟨k₀, v₀⟩ := kv
    by_cases h : k₀ = k'
    · subst h
      by_cases h2 : k₀ = k <;> simp [PyDict.set, PyDict.get?, h2]
    · by_cases h2 : k₀ = k
      · subst h2
        simp [PyDict.set, PyDict.get?, h, Ne.symm h]
      · simp [PyDict.set, PyDict.get?, h, h2, ih]

theorem PyDict.get?_set_self (d : PyDict) (k : String) (v : JVal) :
    PyDict.get? (PyDict.set d k v) k = some v := by
  simp [PyDict.get?_set]

theorem PyDict.get?_set_ne (d : PyDict) (k k' : String) (v : JVal) (h : k' ≠ k) :
    PyDict.get? (PyDict.set d k' v) k = PyDict.get? d k := by
  simp [PyDict.get?_set, h]

/-- A key already present before `preserveExtras` keeps its value: the
loop only assigns keys not yet in `normalized`. -/
theorem preserveExtras_get?_of_isSome (s : PyDict) (k : String) :
    ∀ n : PyDict, (PyDict.get? n k).isSome = true →
      PyDict.get? (preserveExtras s n) k = PyDict.get? n k := by
  induction s with
  | nil => intro n _; rfl
  | cons kv rest ih =>
    intro n h
    show PyDict.get? (preserveExtras rest _) k = _
    have hstep : PyDict.get?
        (if !PyDict.hasKey n kv.1 && !startsWithUnderscore kv.1
         then PyDict.set n kv.1 kv.2 else n) k = PyDict.get? n k := by
      split
      · rename_i hc
        have hk : kv.1 ≠ k := by
          intro he
          rw [he] at hc
          simp only [Bool.and_eq_true, Bool.not_eq_true'] at hc
          rw [PyDict.hasKey, h] at hc
          exact absurd hc.1 (by decide)
        exact PyDict.get?_set_ne n k kv.1 kv.2 hk
      · rfl
    rw [ih _ (by rw [hstep]; exact h), hstep]

/-- A key absent from `normalized` before `preserveExtras` and not
underscore-prefixed ends up with the source record's value for it. -/
theorem preserveExtras_get?_of_none (s : PyDict) (k : String)
    (hu : startsWithUnderscore k = false) :
    ∀ n : PyDict, PyDict.get? n k = none →
      PyDict.get? (preserveExtras s n) k = PyDict.get? s k := by
  induction s with
  | nil => intro n hn; exact hn
  | cons kv rest ih =>
    intro n hn
    show PyDict.get? (preserveExtras rest
      (if !PyDict.hasKey n kv.1 && !startsWithUnderscore kv.1
       then PyDict.set n kv.1 kv.2 else n)) k = PyDict.get? (kv :: rest) k
    by_cases hk : kv.1 = k
    · have hc : (!PyDict.hasKey n kv.1 && !startsWithUnderscore kv.1) = true := by
        rw [hk]
        simp [PyDict.hasKey, hn, hu]
      rw [if_pos hc]
      have hself : PyDict.get? (PyDict.set n kv.1 kv.2) k = some kv.2 := by
        rw [hk]; exact PyDict.get?_set_self n k kv.2
      rw [preserveExtras_get?_of_isSome rest k _ (by rw [hself]; rfl), hself]
      obtain ⟨k₁, v₁⟩ := kv
      simp only at hk
      simp [PyDict.get?, hk]
    · have hstep : PyDict.get?
          (if !PyDict.hasKey n kv.1 && !startsWithUnderscore kv.1
           then PyDict.set n kv.1 kv.2 else n) k = none := by
        split
        · rw [PyDict.get?_set_ne n k kv.1 kv.2 hk]; exact hn
        · exact hn
      rw [ih _ hstep]
      obtain ⟨k₁, v₁⟩ := kv
      simp only at hk
      simp [PyDict.get?, hk, hn]

/-- Where the `timestamp` field of the mapped core comes from: the first
present alias, parsed; no alias, no key. -/
theorem normalizedCore_get?_timestamp (now : String) (session : PyDict) (idv : JVal) :
    PyDict.get? (normalizedCore now session idv) "timestamp" =
      (firstPresent session timestampFieldAliases).map
        (fun tv => JVal.jstr (parseTimestamp now tv)) := by
  rw [normalizedCore]
  cases h : firstPresent session timestampFieldAliases <;>
    simp [h, PyDict.get?_set, PyDict.get?]

/-- When `_parse_timestamp` falls back to `datetime.now(...)`: the value
is a string without a `T` that fails every fixed format, or a
non-string non-number. -/
def timestampUnparseable (v : JVal) : Bool :=
  match v with
  | .jstr s => !s.data.contains (Char.ofNat 84) && (tryFormats s).isNone
  | .jint _ => false
  | .jbool _ => false
  | _ => true

theorem parseTimestamp_of_unparseable (now : String) (v : JVal)
    (h : timestampUnparseable v = true) : parseTimestamp now v = now := by
  cases v with
  | jstr s =>
    simp only [timestampUnparseable, Bool.and_eq_true, Bool.not_eq_true',
      Option.isNone_iff_eq_none] at h
    rw [parseTimestamp, if_neg (by rw [h.1]; exact fun hc => Bool.noConfusion hc), h.2]
  | jnull => rfl
  | jbool b => exact absurd h (by simp [timestampUnparseable])
  | jint n => exact absurd h (by simp [timestampUnparseable])
  | jlist xs => rfl
  | jdict xs => rfl

/-- Claim C6 (corrected): an entry whose FIRST PRESENT timestamp alias
holds an unparseable value is normalized with `timestamp` equal to the
current time, as claimed — but an entry with NO timestamp alias at all
produces a record with no `timestamp` key (the fallback only runs when
some alias is present), not the synthetic "now" the claim asserts for
missing timestamps. -/
theorem normalize_timestamp_fallback (now : String) (session r : PyDict)
    (hr : normalizeSession now session = some r) :
    (∀ v, firstPresent session timestampFieldAliases = some v →
      timestampUnparseable v = true →
      PyDict.get? r "timestamp" = some (JVal.jstr now)) ∧
    (firstPresent session timestampFieldAliases = none →
      PyDict.get? r "timestamp" = none) := by
  rw [normalizeSession] at hr
  cases hid : firstPresent session idFieldAliases with
  | none => rw [hid] at hr; exact absurd hr (by simp)
  | some idv =>
    rw [hid] at hr
    have hr' : r = preserveExtras session (normalizedCore now session idv) :=
      (Option.some_injective _ hr).symm
    subst hr'
    constructor
    · intro v hv hunp
      have hcore : PyDict.get? (normalizedCore now session idv) "timestamp" =
          some (JVal.jstr now) := by
        rw [normalizedCore_get?_timestamp, hv]
        show some (JVal.jstr (parseTimestamp now v)) = some (JVal.jstr now)
        rw [parseTimestamp_of_unparseable now v hunp]
      rw [preserveExtras_get?_of_isSome session "timestamp" _ (by rw [hcore]; rfl), hcore]
    · intro hv
      have hsess : PyDict.get? session "timestamp" = none := by
        have : firstPresent session timestampFieldAliases = none := hv
        rw [timestampFieldAliases, firstPresent] at this
        revert this
        cases h : PyDict.get? session "timestamp" <;> simp
      have hcore : PyDict.get? (normalizedCore now session idv) "timestamp" = none := by
        rw [normalizedCore_get?_timestamp, hv]
        rfl
      rw [preserveExtras_get?_of_none session "timestamp" (by decide) _ hcore]
      exact hsess

/-- Claim C6 counterexample: a raw entry with no timestamp field at all
is normalized to a record with NO `timestamp` key (so the claim's "the
normalized record's timestamp is the current time, never null or
absent" fails for missing timestamps). -/
theorem missing_timestamp_not_defaulted :
    (normalizeSession "2025-01-01T00:00:00+00:00" [("session_id", JVal.jstr "s")]).map
      (fun r => PyDict.get? r "timestamp") = some none := by decide

/-- Witness for `normalize_timestamp_fallback` at a concrete entry with
an unparseable `timestamp` string. -/
theorem normalize_timestamp_fallback_witness :
    PyDict.get? ((normalizeSession "2025-01-01T00:00:00+00:00"
      [("session_id", JVal.jstr "s"), ("timestamp", JVal.jstr "garbage")]).getD [])
      "timestamp" = some (JVal.jstr "2025-01-01T00:00:00+00:00") :=
  (normalize_timestamp_fallback "2025-01-01T00:00:00+00:00"
    [("session_id", JVal.jstr "s"), ("timestamp", JVal.jstr "garbage")]
    ((normalizeSession "2025-01-01T00:00:00+00:00"
      [("session_id", JVal.jstr "s"), ("timestamp", JVal.jstr "garbage")]).getD [])
    (by decide)).1 (JVal.jstr "garbage") (by decide) (by decide)

/-! ## Concrete run fragments used by individual claims -/

/-- A discovered file that parses to a non-mapping top level. -/
def nonMappingFile : MFile :=
  { path := "bad.json", stem := "bad", parentName := "sync", inSubdir := false,
    mtime := 0, content := .parsed (.jlist []) }

/-- A file whose machine id can only come from the last-resort branch of
`_extract_machine_id`: its top level carries no `machine_id`/`hostname`
key, its stem has fewer than three underscore-separated tokens, and it
does not live in a subdirectory. -/
def hashFallbackFile : MFile :=
  { path := "data.json", stem := "data", parentName := "sync", inSubdir := false,
    mtime := 0, content := .parsed (.jdict []) }

/-- Duplicate pair for the most-complete-record analysis: records of one
session seen by two machines, disagreeing on `input_tokens` (100 vs 150),
the first carrying an extra truthy non-provenance field whose string
value begins with an underscore. Built through the actual normalization
and provenance path. -/
def dupExtraField : PyDict :=
  (normalizeSession "NOW"
    [("session_id", JVal.jstr "s"), ("input_tokens", JVal.jint 100),
     ("note", JVal.jstr "_extra")]).getD []
  |> storedOf (JVal.jstr "m1")
      { path := "f1.json", stem := "f1", parentName := "sync", inSubdir := false,
        mtime := 5, content := .parsed (.jdict []) }

def dupMoreTokens : PyDict :=
  (normalizeSession "NOW"
    [("session_id", JVal.jstr "s"), ("input_tokens", JVal.jint 150)]).getD []
  |> storedOf (JVal.jstr "m2")
      { path := "f2.json", stem := "f2", parentName := "sync", inSubdir := false,
        mtime := 3, content := .parsed (.jdict []) }

/-- Duplicate pair on which every value of every field is either falsy
or has a string form beginning with an underscore, with zero tokens, so
the completeness loop of `_resolve_conflict` never fires. The two
records disagree on `model`, so the group is a genuine conflict. -/
def dupAllUnderscoreA : PyDict :=
  (normalizeSession "NOW"
    [("session_id", JVal.jstr "_s"), ("model", JVal.jstr "_m1")]).getD []
  |> storedOf (JVal.jstr "_mac1")
      { path := "_f1.json", stem := "_f1", parentName := "sync", inSubdir := false,
        mtime := 0, content := .parsed (.jdict []) }

def dupAllUnderscoreB : PyDict :=
  (normalizeSession "NOW"
    [("session_id", JVal.jstr "_s"), ("model", JVal.jstr "_m2")]).getD []
  |> storedOf (JVal.jstr "_mac2")
      { path := "_f2.json", stem := "_f2", parentName := "sync", inSubdir := false,
        mtime := 0, content := .parsed (.jdict []) }

/-! ## Grouping lemmas: how `sessions_by_id` evolves -/

/-- The keys of the grouping map. -/
def keysOf (m : List (JVal × List PyDict)) : List JVal := m.map Prod.fst

/-- Key-set effect of one `defaultdict` append: an existing (equal) key
is reused, a fresh key is appended. -/
def insertNew (l : List JVal) (k : JVal) : List JVal :=
  if l.any (fun k₀ => JVal.beq k₀ k) then l else l ++ [k]

theorem any_beq_iff_mem (l : List JVal) (k : JVal) :
    l.any (fun k₀ => JVal.beq k₀ k) = true ↔ k ∈ l := by
  rw [List.any_eq_true]
  constructor
  · rintro ⟨x, hx, hbeq⟩
    rwa [JVal.eq_of_beq _ _ hbeq] at hx
  · intro hk
    exact ⟨k, hk, JVal.beq_refl k⟩

theorem keysOf_groupAdd (m : List (JVal × List PyDict)) (k : JVal) (s : PyDict) :
    keysOf (groupAdd m k s) = insertNew (keysOf m) k := by
  induction m with
  | nil => simp [groupAdd, insertNew, keysOf]
  | cons kv rest ih =>
    obtain ⟨k₀, g⟩ := kv
    rw [groupAdd]
    by_cases h : JVal.beq k₀ k = true
    · rw [if_pos h]
      simp [keysOf, insertNew, h]
    · rw [if_neg h]
      show k₀ :: keysOf (groupAdd rest k s) = insertNew (k₀ :: keysOf rest) k
      rw [ih, insertNew, insertNew]
      simp only [List.any_cons, Bool.not_eq_true] at h
      simp only [List.any_cons, h, Bool.false_or]
      split <;> simp

def groupSizes (m : List (JVal × List PyDict)) : Nat :=
  (m.map fun kv => kv.2.length).sum

theorem groupSizes_groupAdd (m : List (JVal × List PyDict)) (k : JVal) (s : PyDict) :
    groupSizes (groupAdd m k s) = groupSizes m + 1 := by
  induction m with
  | nil => simp [groupAdd, groupSizes]
  | cons kv rest ih =>
    obtain ⟨k₀, g⟩ := kv
    rw [groupAdd]
    split
    · simp [groupSizes]
      omega
    · show groupSizes ((k₀, g) :: groupAdd rest k s) = _
      simp only [groupSizes, List.map_cons, List.sum_cons] at ih ⊢
      omega

/-- Every group of the map is non-empty. -/
def groupsNonempty (m : List (JVal × List PyDict)) : Prop := ∀ kv ∈ m, kv.2 ≠ []

theorem groupsNonempty_groupAdd {m : List (JVal × List PyDict)} (k : JVal) (s : PyDict)
    (h : groupsNonempty m) : groupsNonempty (groupAdd m k s) := by
  induction m with
  | nil =>
    intro kv hkv
    rw [groupAdd] at hkv
    rcases List.mem_singleton.mp hkv with rfl
    simp
  | cons kv₀ rest ih =>
    obtain ⟨k₀, g⟩ := kv₀
    intro kv hkv
    rw [groupAdd] at hkv
    by_cases hb : JVal.beq k₀ k = true
    · rw [if_pos hb] at hkv
      rcases List.mem_cons.mp hkv with rfl | h2
      · simp
      · exact h _ (List.mem_cons_of_mem _ h2)
    · rw [if_neg hb] at hkv
      rcases List.mem_cons.mp hkv with rfl | h2
      · exact h _ (List.mem_cons_self _ _)
      · exact ih (fun kv' hkv' => h _ (List.mem_cons_of_mem _ hkv')) _ h2

/-- Every member of every group carries the group's key as its grouping
id. -/
def groupsWellKeyed (m : List (JVal × List PyDict)) : Prop :=
  ∀ kv ∈ m, ∀ s ∈ kv.2, gidOf s = kv.1

theorem groupsWellKeyed_groupAdd {m : List (JVal × List PyDict)} {k : JVal} {s : PyDict}
    (h : groupsWellKeyed m) (hs : gidOf s = k) : groupsWellKeyed (groupAdd m k s) := by
  induction m with
  | nil =>
    intro kv hkv s' hs'
    rw [groupAdd] at hkv
    rcases List.mem_singleton.mp hkv with rfl
    rcases List.mem_singleton.mp hs' with rfl
    exact hs
  | cons kv₀ rest ih =>
    obtain ⟨k₀, g⟩ := kv₀
    intro kv hkv s' hs'
    rw [groupAdd] at hkv
    by_cases hbeq : JVal.beq k₀ k = true
    · rw [if_pos hbeq] at hkv
      rcases List.mem_cons.mp hkv with rfl | h2
      · rcases List.mem_append.mp hs' with hg | hsing
        · exact h (k₀, g) (List.mem_cons_self _ _) s' hg
        · rcases List.mem_singleton.mp hsing with rfl
          rw [hs, ← JVal.eq_of_beq _ _ hbeq]
      · exact h kv (List.mem_cons_of_mem _ h2) s' hs'
    · rw [if_neg hbeq] at hkv
      rcases List.mem_cons.mp hkv with rfl | h2
      · exact h (k₀, g) (List.mem_cons_self _ _) s' hs'
      · exact ih (fun kv' hkv' => h kv' (List.mem_cons_of_mem _ hkv')) _ h2 s' hs'

theorem length_insertNew_mem {l : List JVal} {k : JVal} (h : k ∈ l) :
    (insertNew l k).length = l.length := by
  rw [insertNew, if_pos ((any_beq_iff_mem l k).mpr h)]

theorem length_insertNew_not_mem {l : List JVal} {k : JVal} (h : k ∉ l) :
    (insertNew l k).length = l.length + 1 := by
  rw [insertNew, if_neg (fun ha => h ((any_beq_iff_mem l k).mp ha))]
  simp

theorem nodup_insertNew {l : List JVal} (k : JVal) (h : l.Nodup) :
    (insertNew l k).Nodup := by
  rw [insertNew]
  rcases Classical.em (k ∈ l) with hm | hm
  · rw [if_pos ((any_beq_iff_mem l k).mpr hm)]
    exact h
  · rw [if_neg (fun ha => hm ((any_beq_iff_mem l k).mp ha))]
    simp [List.nodup_append, h, hm]

theorem mem_insertNew {l : List JVal} {k x : JVal} :
    x ∈ insertNew l k ↔ x ∈ l ∨ x = k := by
  rw [insertNew]
  split
  · rename_i h
    constructor
    · exact Or.inl
    · rintro (hx | rfl)
      · exact hx
      · exact (any_beq_iff_mem l x).mp h
  · simp

/-! ## A run's stored sessions, seen as one flat sequence -/

/-- The provenance-augmented sessions one file contributes to storage
(empty for files that fail to load). -/
def fileStored (pyHash : String → Nat) (now : String) (f : MFile) : List PyDict :=
  match f.content with
  | ParseResult.parsed (JVal.jdict entries) =>
    (extractSessions now entries).map (storedOf (extractMachineId pyHash f entries) f)
  | _ => []

/-- The grouping ids of the sessions that actually get grouped. -/
def truthyGids (ss : List PyDict) : List JVal :=
  ss.filterMap fun s => if (gidOf s).truthy then some (gidOf s) else none

/-- One file's normalized session count (what `machine_stats` records as
`session_count` for a successfully loaded file; 0 for a failed one). -/
def normalizedCount (now : String) (f : MFile) : Nat :=
  match f.content with
  | ParseResult.parsed (JVal.jdict entries) => (extractSessions now entries).length
  | _ => 0

/-- The stored-and-grouped sessions of a whole run, in storage order. -/
def runStored (pyHash : String → Nat) (now : String) (files : List MFile) : List PyDict :=
  (files.map fun f => (fileStored pyHash now f).filter fun s => (gidOf s).truthy).flatten

def insertNewAll (l : List JVal) (ks : List JVal) : List JVal := ks.foldl insertNew l

/-- Grouping a flat sequence of stored sessions, each under its own
grouping id, exactly as the storage loop does. -/
def groupAddAll (m : List (JVal × List PyDict)) (ss : List PyDict) :
    List (JVal × List PyDict) :=
  ss.foldl (fun m s => groupAdd m (gidOf s) s) m

theorem groupAddAll_append (m : List (JVal × List PyDict)) (a b : List PyDict) :
    groupAddAll m (a ++ b) = groupAddAll (groupAddAll m a) b := by
  rw [groupAddAll, groupAddAll, groupAddAll, List.foldl_append]

theorem keysOf_groupAddAll :
    ∀ (ss : List PyDict) (m : List (JVal × List PyDict)),
      keysOf (groupAddAll m ss) = insertNewAll (keysOf m) (ss.map gidOf) := by
  intro ss
  induction ss with
  | nil => intro m; rfl
  | cons s rest ih =>
    intro m
    show keysOf (groupAddAll (groupAdd m (gidOf s) s) rest) = _
    rw [ih, keysOf_groupAdd]
    rfl

theorem groupsNonempty_groupAddAll :
    ∀ (ss : List PyDict) (m : List (JVal × List PyDict)),
      groupsNonempty m → groupsNonempty (groupAddAll m ss) := by
  intro ss
  induction ss with
  | nil => intro m h; exact h
  | cons s rest ih =>
    intro m h
    exact ih _ (groupsNonempty_groupAdd _ _ h)

theorem groupsWellKeyed_groupAddAll :
    ∀ (ss : List PyDict) (m : List (JVal × List PyDict)),
      groupsWellKeyed m → groupsWellKeyed (groupAddAll m ss) := by
  intro ss
  induction ss with
  | nil => intro m h; exact h
  | cons s rest ih =>
    intro m h
    exact ih _ (groupsWellKeyed_groupAdd h rfl)

/-- The storage loop over one file's sessions, flattened: only sessions
with a truthy grouping id reach `sessions_by_id`. -/
theorem sessionsById_store_foldl (mid : JVal) (f : MFile) :
    ∀ (ss : List PyDict) (st : RState),
      (ss.foldl (storeSession mid f) st).sessionsById =
        groupAddAll st.sessionsById
          ((ss.map (storedOf mid f)).filter fun s => (gidOf s).truthy) := by
  intro ss
  induction ss with
  | nil => intro st; rfl
  | cons s rest ih =>
    intro st
    rw [List.foldl_cons, List.map_cons, List.filter_cons]
    rw [storeSession]
    by_cases hg : (gidOf (storedOf mid f s)).truthy = true
    · rw [if_pos hg, ih, hg]
      show groupAddAll (groupAdd st.sessionsById (gidOf (storedOf mid f s)) (storedOf mid f s))
          ((rest.map (storedOf mid f)).filter fun s => (gidOf s).truthy) = _
      rfl
    · rw [if_neg hg, ih]
      simp only [Bool.not_eq_true] at hg
      rw [hg]
      simp

theorem sessionsById_loadMachineData (pyHash : String → Nat) (now : String) (st : RState)
    (f : MFile) :
    (loadMachineData pyHash now st f).sessionsById =
      groupAddAll st.sessionsById
        ((fileStored pyHash now f).filter fun s => (gidOf s).truthy) := by
  obtain ⟨path, stem, parentName, inSubdir, mtime, content⟩ := f
  cases content with
  | parseFailure msg => rfl
  | parsed d =>
    cases d with
    | jdict entries =>
      rw [loadMachineData]
      rw [sessionsById_store_foldl]
      rfl
    | jnull => rfl
    | jbool b => rfl
    | jint n => rfl
    | jstr s => rfl
    | jlist xs => rfl

theorem sessionsById_loadAll (pyHash : String → Nat) (now : String) :
    ∀ (files : List MFile) (st : RState),
      (loadAll pyHash now st files).sessionsById =
        groupAddAll st.sessionsById (runStored pyHash now files) := by
  intro files
  induction files with
  | nil => intro st; rfl
  | cons f rest ih =>
    intro st
    show (loadAll pyHash now (loadMachineData pyHash now st f) rest).sessionsById = _
    rw [ih, sessionsById_loadMachineData]
    rw [show runStored pyHash now (f :: rest) =
          ((fileStored pyHash now f).filter fun s => (gidOf s).truthy) ++
            runStored pyHash now rest from rfl]
    rw [groupAddAll_append]

/-! ## Counting distinct grouping ids -/

theorem insertNew_of_mem {l : List JVal} {k : JVal} (h : k ∈ l) : insertNew l k = l := by
  rw [insertNew, if_pos ((any_beq_iff_mem l k).mpr h)]

theorem insertNew_of_not_mem {l : List JVal} {k : JVal} (h : k ∉ l) :
    insertNew l k = l ++ [k] := by
  rw [insertNew, if_neg (fun ha => h ((any_beq_iff_mem l k).mp ha))]

theorem length_insertNewAll_le :
    ∀ (ks l : List JVal), (insertNewAll l ks).length ≤ l.length + ks.length := by
  intro ks
  induction ks with
  | nil => intro l; simp [insertNewAll]
  | cons k rest ih =>
    intro l
    show (insertNewAll (insertNew l k) rest).length ≤ l.length + (k :: rest).length
    simp only [List.length_cons]
    rcases Classical.em (k ∈ l) with hm | hm
    · have h := ih (insertNew l k)
      rw [length_insertNew_mem hm] at h
      omega
    · have h := ih (insertNew l k)
      rw [length_insertNew_not_mem hm] at h
      omega

theorem nodup_insertNewAll :
    ∀ (ks l : List JVal), l.Nodup → (insertNewAll l ks).Nodup := by
  intro ks
  induction ks with
  | nil => intro l h; exact h
  | cons k rest ih =>
    intro l h
    exact ih _ (nodup_insertNew k h)

theorem length_insertNewAll_eq :
    ∀ (ks l : List JVal), (∀ k ∈ ks, k ∉ l) → ks.Nodup →
      (insertNewAll l ks).length = l.length + ks.length := by
  intro ks
  induction ks with
  | nil => intro l _ _; simp [insertNewAll]
  | cons k rest ih =>
    intro l hout hnd
    show (insertNewAll (insertNew l k) rest).length = l.length + (k :: rest).length
    rw [insertNew_of_not_mem (hout k (List.mem_cons_self _ _))]
    rw [ih (l ++ [k]) ?_ (List.nodup_cons.mp hnd).2]
    · simp
      omega
    · intro k' hk'
      rw [List.mem_append, List.mem_singleton]
      rintro (h1 | rfl)
      · exact hout k' (List.mem_cons_of_mem _ hk') h1
      · exact (List.nodup_cons.mp hnd).1 hk'

theorem length_insertNewAll_eq_rev :
    ∀ (ks l : List JVal),
      (insertNewAll l ks).length = l.length + ks.length →
      (∀ k ∈ ks, k ∉ l) ∧ ks.Nodup := by
  intro ks
  induction ks with
  | nil => intro l _; exact ⟨by simp, List.nodup_nil⟩
  | cons k rest ih =>
    intro l h
    have hlen : (insertNewAll (insertNew l k) rest).length = l.length + (rest.length + 1) := by
      have : (insertNewAll l (k :: rest)).length = l.length + (k :: rest).length := h
      simpa using this
    rcases Classical.em (k ∈ l) with hm | hm
    · exfalso
      have hle := length_insertNewAll_le rest (insertNew l k)
      rw [length_insertNew_mem hm] at hle
      omega
    · have heq : (insertNewAll (l ++ [k]) rest).length = (l ++ [k]).length + rest.length := by
        rw [← insertNew_of_not_mem hm]
        rw [length_insertNew_not_mem hm]
        omega
      obtain ⟨hout, hnd⟩ := ih (l ++ [k]) heq
      refine ⟨?_, List.nodup_cons.mpr ⟨?_, hnd⟩⟩
      · intro k' hk'
        rcases List.mem_cons.mp hk' with rfl | h2
        · exact hm
        · intro hl
          exact hout k' h2 (List.mem_append.mpr (Or.inl hl))
      · intro hkr
        exact hout k hkr (List.mem_append.mpr (Or.inr (List.mem_singleton.mpr rfl)))

theorem truthyGids_eq (ss : List PyDict) :
    truthyGids ss = (ss.filter fun s => (gidOf s).truthy).map gidOf := by
  induction ss with
  | nil => rfl
  | cons s rest ih =>
    rw [truthyGids, List.filterMap_cons, List.filter_cons]
    by_cases h : (gidOf s).truthy = true
    · rw [h]
      simp only [if_pos trivial, List.map_cons]
      rw [← ih]
      rfl
    · simp only [Bool.not_eq_true] at h
      rw [h]
      simp only [Bool.false_eq_true, if_false]
      rw [← ih]
      rfl

theorem fileStored_length (pyHash : String → Nat) (now : String) (f : MFile) :
    (fileStored pyHash now f).length = normalizedCount now f := by
  obtain ⟨path, stem, parentName, inSubdir, mtime, content⟩ := f
  cases content with
  | parseFailure msg => rfl
  | parsed d =>
    cases d <;> simp [fileStored, normalizedCount]

/-- The grouping ids of all stored-and-grouped sessions of a run. -/
def runGids (pyHash : String → Nat) (now : String) (files : List MFile) : List JVal :=
  (runStored pyHash now files).map gidOf

/-- Stored-session count of a run: at most the sum of the files'
normalized session counts, with equality exactly when every stored
session has a truthy grouping id. -/
theorem runStored_length (pyHash : String → Nat) (now : String) :
    ∀ files : List MFile,
      (runStored pyHash now files).length ≤ (files.map (normalizedCount now)).sum ∧
      ((runStored pyHash now files).length = (files.map (normalizedCount now)).sum ↔
        ∀ f ∈ files, ∀ s ∈ fileStored pyHash now f, (gidOf s).truthy = true) := by
  intro files
  induction files with
  | nil => simp [runStored]
  | cons f rest ih =>
    have hfl : ((fileStored pyHash now f).filter fun s => (gidOf s).truthy).length ≤
        normalizedCount now f := by
      calc ((fileStored pyHash now f).filter fun s => (gidOf s).truthy).length
          ≤ (fileStored pyHash now f).length := List.length_filter_le _ _
        _ = normalizedCount now f := fileStored_length pyHash now f
    have hfiff : (((fileStored pyHash now f).filter fun s => (gidOf s).truthy).length =
        normalizedCount now f) ↔
        ∀ s ∈ fileStored pyHash now f, (gidOf s).truthy = true := by
      rw [← fileStored_length pyHash now f]
      constructor
      · intro h
        have heq := List.Sublist.eq_of_length (List.filter_sublist _) h
        intro s hs
        rw [← heq] at hs
        exact (List.mem_filter.mp hs).2
      · intro h
        rw [List.filter_eq_self.mpr h]
    have hshape : runStored pyHash now (f :: rest) =
        ((fileStored pyHash now f).filter fun s => (gidOf s).truthy) ++
          runStored pyHash now rest := rfl
    rw [hshape, List.length_append, List.map_cons, List.sum_cons]
    constructor
    · omega
    · constructor
      · intro heq
        have h1 : ((fileStored pyHash now f).filter fun s => (gidOf s).truthy).length =
            normalizedCount now f ∧
            (runStored pyHash now rest).length = (rest.map (normalizedCount now)).sum := by
          have := ih.1
          omega
        intro f' hf'
        rcases List.mem_cons.mp hf' with rfl | h2
        · exact hfiff.mp h1.1
        · exact (ih.2.mp h1.2) f' h2
      · intro hall
        have e1 : ((fileStored pyHash now f).filter fun s => (gidOf s).truthy).length =
            normalizedCount now f := hfiff.mpr (hall f (List.mem_cons_self _ _))
        have e2 : (runStored pyHash now rest).length = (rest.map (normalizedCount now)).sum :=
          ih.2.mpr fun f' hf' => hall f' (List.mem_cons_of_mem _ hf')
        omega

/-! ## Stable-sort lemmas for the resolver -/

theorem mem_insertByMtimeDesc {x y : PyDict} {l : List PyDict} :
    y ∈ insertByMtimeDesc x l ↔ y = x ∨ y ∈ l := by
  induction l with
  | nil => simp [insertByMtimeDesc]
  | cons z zs ih =>
    rw [insertByMtimeDesc]
    split
    · simp only [List.mem_cons, ih]
      tauto
    · simp [List.mem_cons]

theorem mem_sortByMtimeDesc {y : PyDict} {l : List PyDict} :
    y ∈ sortByMtimeDesc l ↔ y ∈ l := by
  induction l with
  | nil => simp [sortByMtimeDesc]
  | cons x xs ih =>
    rw [sortByMtimeDesc]
    simp only [mem_insertByMtimeDesc, List.mem_cons, ih]

theorem length_insertByMtimeDesc (x : PyDict) (l : List PyDict) :
    (insertByMtimeDesc x l).length = l.length + 1 := by
  induction l with
  | nil => rfl
  | cons z zs ih =>
    rw [insertByMtimeDesc]
    split <;> simp [ih]

theorem length_sortByMtimeDesc (l : List PyDict) :
    (sortByMtimeDesc l).length = l.length := by
  induction l with
  | nil => rfl
  | cons x xs ih =>
    rw [sortByMtimeDesc, length_insertByMtimeDesc, ih]
    simp

theorem pairwise_insertByMtimeDesc {x : PyDict} {l : List PyDict}
    (h : l.Pairwise fun a b => mtimeOf b ≤ mtimeOf a) :
    (insertByMtimeDesc x l).Pairwise fun a b => mtimeOf b ≤ mtimeOf a := by
  induction l with
  | nil => simp [insertByMtimeDesc]
  | cons z zs ih =>
    rw [List.pairwise_cons] at h
    rw [insertByMtimeDesc]
    split
    · rename_i hlt
      rw [List.pairwise_cons]
      refine ⟨fun b hb => ?_, ih h.2⟩
      rcases mem_insertByMtimeDesc.mp hb with rfl | hb2
      · exact le_of_lt hlt
      · exact h.1 b hb2
    · rename_i hge
      rw [List.pairwise_cons]
      refine ⟨fun b hb => ?_, List.pairwise_cons.mpr h⟩
      rcases List.mem_cons.mp hb with rfl | hb2
      · exact le_of_not_lt hge
      · exact le_trans (h.1 b hb2) (le_of_not_lt hge)

theorem pairwise_sortByMtimeDesc (l : List PyDict) :
    (sortByMtimeDesc l).Pairwise fun a b => mtimeOf b ≤ mtimeOf a := by
  induction l with
  | nil => simp [sortByMtimeDesc]
  | cons x xs ih =>
    rw [sortByMtimeDesc]
    exact pairwise_insertByMtimeDesc ih

/-! ## The most-complete loop selects a member of the group -/

theorem foldl_bestStep_spec (l : List PyDict) :
    ∀ acc : Option PyDict × Nat × Int,
      (l.foldl bestStep acc).1 = acc.1 ∨ ∃ x ∈ l, (l.foldl bestStep acc).1 = some x := by
  induction l with
  | nil => intro acc; exact Or.inl rfl
  | cons d ds ih =>
    intro acc
    rw [List.foldl_cons]
    rcases ih (bestStep acc d) with h | ⟨x, hx, hx2⟩
    · rw [h, bestStep]
      split
      · exact Or.inr ⟨d, List.mem_cons_self _ _, rfl⟩
      · exact Or.inl rfl
    · exact Or.inr ⟨x, List.mem_cons_of_mem _ hx, hx2⟩

theorem bestDuplicate_mem {l : List PyDict} {b : PyDict} (h : bestDuplicate l = some b) :
    b ∈ l := by
  rw [bestDuplicate] at h
  rcases foldl_bestStep_spec l (none, 0, 0) with h2 | ⟨x, hx, hx2⟩
  · rw [h] at h2
    exact absurd h2 (by simp)
  · rw [h] at hx2
    rw [Option.some.inj hx2]
    exact hx

theorem sortByMtimeDesc_headD_mem {l : List PyDict} (h : l ≠ []) :
    (sortByMtimeDesc l).headD [] ∈ l := by
  have hne : sortByMtimeDesc l ≠ [] := by
    intro h0
    have := length_sortByMtimeDesc l
    rw [h0] at this
    exact h (List.length_eq_zero.mp this.symm)
  obtain ⟨first, rest, hs⟩ := List.exists_cons_of_ne_nil hne
  rw [hs]
  exact mem_sortByMtimeDesc.mp (by rw [hs]; exact List.mem_cons_self _ _)

/-- The winner of a conflict resolution is one of the duplicates. -/
theorem resolveConflict_fst_mem (sid : JVal) {dups : List PyDict} (hne : dups ≠ []) :
    (resolveConflict sid dups).1 ∈ dups := by
  rw [resolveConflict]
  split
  · exact sortByMtimeDesc_headD_mem hne
  · split
    · rename_i best hbest
      exact mem_sortByMtimeDesc.mp (bestDuplicate_mem hbest)
    · exact sortByMtimeDesc_headD_mem hne


/-- The `session_id` of the mapped core is always the stringified id
alias value. -/
theorem normalizedCore_get?_session_id (now : String) (session : PyDict) (idv : JVal) :
    PyDict.get? (normalizedCore now session idv) "session_id" = some (JVal.jstr idv.pyStr) := by
  rw [normalizedCore]
  cases h : firstPresent session timestampFieldAliases <;>
    simp [h, PyDict.get?_set, PyDict.get?]

/-- The mapped core never contains an `id` key (the alias is renamed to
`session_id`; `id` can only reappear through `preserveExtras`). -/
theorem normalizedCore_get?_id (now : String) (session : PyDict) (idv : JVal) :
    PyDict.get? (normalizedCore now session idv) "id" = none := by
  rw [normalizedCore]
  cases h : firstPresent session timestampFieldAliases <;>
    simp [h, PyDict.get?_set, PyDict.get?]

/-- Claim C10 (confirmed): a raw entry whose `session_id` field (the
highest-priority id alias) stringifies to the empty string, and whose
preserved `id` field (if any) is falsy, normalizes successfully — so it
is counted in the machine's session count and in the cost/token
aggregates of `machine_stats` — yet its grouping id
`session.get("session_id") or session.get("id")` is falsy, so the
storage step never adds it to any session group: it can appear in no
resolved output and no summary total. -/
theorem empty_string_id_counted_but_never_grouped (now : String) (mid : JVal) (f : MFile)
    (st : RState) (e : PyDict) (v : JVal) (r : PyDict) (pre post : List PyDict)
    (h1 : PyDict.get? e "session_id" = some v)
    (h2 : v.pyStr = "")
    (h3 : ((PyDict.get? e "id").getD JVal.jnull).truthy = false)
    (hr : normalizeSession now e = some r) :
    (storeSession mid f st r).sessionsById = st.sessionsById ∧
    (machineStatFor f (pre ++ r :: post)).sessionCount =
      (machineStatFor f (pre ++ post)).sessionCount + 1 ∧
    (machineStatFor f (pre ++ r :: post)).totalCost =
      (machineStatFor f (pre ++ post)).totalCost +
        intOf (PyDict.getD r "total_cost" (JVal.jint 0)) ∧
    (machineStatFor f (pre ++ r :: post)).totalTokens =
      (machineStatFor f (pre ++ post)).totalTokens +
        (intOf (PyDict.getD r "input_tokens" (JVal.jint 0)) +
         intOf (PyDict.getD r "output_tokens" (JVal.jint 0))) := by
  have hfp : firstPresent e idFieldAliases = some v := by
    rw [idFieldAliases, firstPresent, h1]
  have hre : r = preserveExtras e (normalizedCore now e v) := by
    rw [normalizeSession, hfp] at hr
    exact (Option.some_injective _ hr).symm
  refine ⟨?_, ?_, ?_, ?_⟩
  · have hsid : PyDict.get? r "session_id" = some (JVal.jstr "") := by
      rw [hre, preserveExtras_get?_of_isSome e "session_id" _
            (by rw [normalizedCore_get?_session_id]; rfl),
          normalizedCore_get?_session_id, h2]
    have hid : PyDict.get? r "id" = PyDict.get? e "id" := by
      rw [hre, preserveExtras_get?_of_none e "id" (by decide) _ (normalizedCore_get?_id now e v)]
    have hsid2 : PyDict.get? (storedOf mid f r) "session_id" = some (JVal.jstr "") := by
      rw [storedOf, PyDict.get?_set_ne _ _ _ _ (by decide), PyDict.get?_set_ne _ _ _ _ (by decide),
        PyDict.get?_set_ne _ _ _ _ (by decide)]
      exact hsid
    have hid2 : PyDict.get? (storedOf mid f r) "id" = PyDict.get? e "id" := by
      rw [storedOf, PyDict.get?_set_ne _ _ _ _ (by decide), PyDict.get?_set_ne _ _ _ _ (by decide),
        PyDict.get?_set_ne _ _ _ _ (by decide)]
      exact hid
    have hgid : (gidOf (storedOf mid f r)).truthy = false := by
      rw [gidOf, PyDict.getD, PyDict.getD, hsid2, hid2]
      show (pyOr (JVal.jstr "") ((PyDict.get? e "id").getD JVal.jnull)).truthy = false
      rw [pyOr, if_neg (by decide)]
      exact h3
    rw [storeSession]
    simp only [hgid]
    rfl
  · simp [machineStatFor, List.map_append, List.sum_append]
    omega
  · simp [machineStatFor, List.map_append, List.sum_append]
    ring
  · simp [machineStatFor, List.map_append, List.sum_append]
    ring

/-- The normalized record of the raw entry whose `session_id` is the
empty string and which carries no other field. -/
def emptyIdRecord : PyDict :=
  (normalizeSession "NOW" [("session_id", JVal.jstr "")]).getD []

/-- Witness for `empty_string_id_counted_but_never_grouped` on the
concrete raw entry whose `session_id` is the empty string and which has
no `id` field at all. -/
theorem empty_string_id_counted_but_never_grouped_witness :
    (storeSession (JVal.jstr "m") nonMappingFile initState emptyIdRecord).sessionsById =
      initState.sessionsById ∧
    (machineStatFor nonMappingFile ([] ++ emptyIdRecord :: [])).sessionCount =
      (machineStatFor nonMappingFile ([] ++ [])).sessionCount + 1 ∧
    (machineStatFor nonMappingFile ([] ++ emptyIdRecord :: [])).totalCost =
      (machineStatFor nonMappingFile ([] ++ [])).totalCost +
        intOf (PyDict.getD emptyIdRecord "total_cost" (JVal.jint 0)) ∧
    (machineStatFor nonMappingFile ([] ++ emptyIdRecord :: [])).totalTokens =
      (machineStatFor nonMappingFile ([] ++ [])).totalTokens +
        (intOf (PyDict.getD emptyIdRecord "input_tokens" (JVal.jint 0)) +
         intOf (PyDict.getD emptyIdRecord "output_tokens" (JVal.jint 0))) :=
  empty_string_id_counted_but_never_grouped "NOW" (JVal.jstr "m") nonMappingFile initState
    [("session_id", JVal.jstr "")] (JVal.jstr "") emptyIdRecord [] []
    (by decide) (by decide) (by decide) (by decide)

/-- Claim C1 (confirmed): when every duplicate of a group of two or more
agrees with every other on all key fields, the resolver returns the
first duplicate of the mtime-descending sort — a duplicate of the group
with maximal source-file modification time — unchanged, and the Conflict
record carries resolution `identical_content` (and no selected machine,
as the source omits that key here). -/
theorem resolve_identical_returns_most_recent (sid : JVal) (dups : List PyDict)
    (h2 : 2 ≤ dups.length)
    (hag : ∀ a ∈ dups, ∀ b ∈ dups, agreeOnKeyFields a b = true) :
    (resolveConflict sid dups).1 = (sortByMtimeDesc dups).headD [] ∧
    (sortByMtimeDesc dups).headD [] ∈ dups ∧
    (∀ s ∈ dups, mtimeOf s ≤ mtimeOf ((sortByMtimeDesc dups).headD [])) ∧
    (resolveConflict sid dups).2 =
      { sessionId := sid, duplicates := dups.length, machines := distinctMachines dups,
        resolution := "identical_content", selectedMachine := none } := by
  have hlen : (sortByMtimeDesc dups).length = dups.length := length_sortByMtimeDesc dups
  have hne : sortByMtimeDesc dups ≠ [] := by
    intro h0
    rw [h0] at hlen
    simp at hlen
    omega
  obtain ⟨first, rest, hs⟩ := List.exists_cons_of_ne_nil hne
  have hid : areDuplicatesIdentical (sortByMtimeDesc dups) = true := by
    rw [hs]
    cases rest with
    | nil => rfl
    | cons r rs =>
      show (r :: rs).all (fun d => agreeOnKeyFields first d) = true
      rw [List.all_eq_true]
      intro d hd
      apply hag
      · exact mem_sortByMtimeDesc.mp (by rw [hs]; exact List.mem_cons_self _ _)
      · exact mem_sortByMtimeDesc.mp (by rw [hs]; exact List.mem_cons_of_mem _ hd)
  have hres : resolveConflict sid dups =
      ((sortByMtimeDesc dups).headD [],
       { sessionId := sid, duplicates := dups.length, machines := distinctMachines dups,
         resolution := "identical_content", selectedMachine := none }) := by
    rw [resolveConflict]
    simp only [hid, if_true]
  refine ⟨by rw [hres], ?_, ?_, by rw [hres]⟩
  · rw [hs]
    exact mem_sortByMtimeDesc.mp (by rw [hs]; exact List.mem_cons_self _ _)
  · intro s hsmem
    have hpw := pairwise_sortByMtimeDesc dups
    rw [hs, List.pairwise_cons] at hpw
    rcases List.mem_cons.mp (by rw [← hs]; exact mem_sortByMtimeDesc.mpr hsmem) with rfl | hsr
    · rw [hs]
      exact le_refl _
    · rw [hs]
      exact hpw.1 s hsr

/-- Identical-content duplicate pair: same key fields, different
non-key fields and provenance, mtimes 5 and 9. -/
def dupIdenticalOld : PyDict :=
  (normalizeSession "NOW"
    [("session_id", JVal.jstr "w"), ("input_tokens", JVal.jint 7)]).getD []
  |> storedOf (JVal.jstr "m1")
      { path := "f1.json", stem := "f1", parentName := "sync", inSubdir := false,
        mtime := 5, content := .parsed (.jdict []) }

def dupIdenticalNew : PyDict :=
  (normalizeSession "NOW"
    [("session_id", JVal.jstr "w"), ("input_tokens", JVal.jint 7),
     ("note", JVal.jstr "extra")]).getD []
  |> storedOf (JVal.jstr "m2")
      { path := "f2.json", stem := "f2", parentName := "sync", inSubdir := false,
        mtime := 9, content := .parsed (.jdict []) }

/-- Witness for `resolve_identical_returns_most_recent` on a concrete
identical-content pair. -/
theorem resolve_identical_returns_most_recent_witness :
    (resolveConflict (JVal.jstr "w") [dupIdenticalOld, dupIdenticalNew]).1 =
      (sortByMtimeDesc [dupIdenticalOld, dupIdenticalNew]).headD [] ∧
    (sortByMtimeDesc [dupIdenticalOld, dupIdenticalNew]).headD [] ∈
      [dupIdenticalOld, dupIdenticalNew] ∧
    (∀ s ∈ [dupIdenticalOld, dupIdenticalNew],
      mtimeOf s ≤ mtimeOf ((sortByMtimeDesc [dupIdenticalOld, dupIdenticalNew]).headD [])) ∧
    (resolveConflict (JVal.jstr "w") [dupIdenticalOld, dupIdenticalNew]).2 =
      { sessionId := JVal.jstr "w", duplicates := [dupIdenticalOld, dupIdenticalNew].length,
        machines := distinctMachines [dupIdenticalOld, dupIdenticalNew],
        resolution := "identical_content", selectedMachine := none } :=
  resolve_identical_returns_most_recent (JVal.jstr "w") [dupIdenticalOld, dupIdenticalNew]
    (by decide) (by intro a ha b hb; fin_cases ha <;> fin_cases hb <;> decide)

/-! ## The resolved mapping as a function of the groups -/

/-- The resolved pair each non-empty group contributes (`_reconcile_sessions`
body, without the conflict bookkeeping). -/
def winnersOf (m : List (JVal × List PyDict)) : List (JVal × PyDict) :=
  m.filterMap fun kv =>
    match kv.2 with
    | [] => none
    | [d] => some (kv.1, d)
    | dups => some (kv.1, (resolveConflict kv.1 dups).1)

theorem reconcile_foldl_fst :
    ∀ (m : List (JVal × List PyDict)) (acc : List (JVal × PyDict)) (st : RState),
      (m.foldl reconcileStep (acc, st)).1 = acc ++ winnersOf m := by
  intro m
  induction m with
  | nil => intro acc st; simp [winnersOf]
  | cons kv rest ih =>
    intro acc st
    obtain ⟨k₀, g₀⟩ := kv
    rw [List.foldl_cons]
    match g₀ with
    | [] =>
      show (List.foldl reconcileStep (acc, st) rest).1 = acc ++ winnersOf ((k₀, []) :: rest)
      rw [ih]
      rfl
    | [d] =>
      show (List.foldl reconcileStep (acc ++ [(k₀, d)], st) rest).1 =
        acc ++ winnersOf ((k₀, [d]) :: rest)
      rw [ih]
      show acc ++ [(k₀, d)] ++ winnersOf rest = acc ++ ((k₀, d) :: winnersOf rest)
      simp
    | d :: d' :: ds =>
      show (List.foldl reconcileStep
          (acc ++ [(k₀, (resolveConflict k₀ (d :: d' :: ds)).1)],
           { st with conflicts := st.conflicts ++ [(resolveConflict k₀ (d :: d' :: ds)).2] })
          rest).1 = acc ++ winnersOf ((k₀, d :: d' :: ds) :: rest)
      rw [ih]
      show acc ++ [(k₀, (resolveConflict k₀ (d :: d' :: ds)).1)] ++ winnersOf rest =
        acc ++ ((k₀, (resolveConflict k₀ (d :: d' :: ds)).1) :: winnersOf rest)
      simp

theorem reconcileSessions_fst (st : RState) :
    (reconcileSessions st).1 = winnersOf st.sessionsById := by
  rw [reconcileSessions, reconcile_foldl_fst st.sessionsById [] st]
  rfl

theorem winnersOf_length {m : List (JVal × List PyDict)} (h : groupsNonempty m) :
    (winnersOf m).length = m.length := by
  induction m with
  | nil => rfl
  | cons kv rest ih =>
    obtain ⟨k₀, g₀⟩ := kv
    have hrest : groupsNonempty rest := fun kv' hkv' => h kv' (List.mem_cons_of_mem _ hkv')
    match g₀, h (k₀, g₀) (List.mem_cons_self _ _) with
    | [], hg => exact absurd rfl hg
    | [d], _ =>
      show ((k₀, d) :: winnersOf rest).length = rest.length + 1
      rw [List.length_cons, ih hrest]
    | d :: d' :: ds, _ =>
      show ((k₀, (resolveConflict k₀ (d :: d' :: ds)).1) :: winnersOf rest).length =
        rest.length + 1
      rw [List.length_cons, ih hrest]

theorem winnersOf_keys {m : List (JVal × List PyDict)} (h : groupsNonempty m) :
    (winnersOf m).map Prod.fst = keysOf m := by
  induction m with
  | nil => rfl
  | cons kv rest ih =>
    obtain ⟨k₀, g₀⟩ := kv
    have hrest : groupsNonempty rest := fun kv' hkv' => h kv' (List.mem_cons_of_mem _ hkv')
    match g₀, h (k₀, g₀) (List.mem_cons_self _ _) with
    | [], hg => exact absurd rfl hg
    | [d], _ =>
      show ((k₀, d) :: winnersOf rest).map Prod.fst = k₀ :: keysOf rest
      rw [List.map_cons, ih hrest]
    | d :: d' :: ds, _ =>
      show ((k₀, (resolveConflict k₀ (d :: d' :: ds)).1) :: winnersOf rest).map Prod.fst =
        k₀ :: keysOf rest
      rw [List.map_cons, ih hrest]

/-- Every resolved pair is keyed by its group's key and carries a member
of that group. -/
theorem winnersOf_mem {m : List (JVal × List PyDict)} :
    ∀ kv ∈ winnersOf m, ∃ g, (kv.1, g) ∈ m ∧ kv.2 ∈ g := by
  induction m with
  | nil => intro kv hkv; exact absurd hkv (by simp [winnersOf])
  | cons kv₀ rest ih =>
    obtain ⟨k₀, g₀⟩ := kv₀
    intro kv hkv
    match g₀, hkv with
    | [], hkv =>
      obtain ⟨g, hg, hmem⟩ := ih kv hkv
      exact ⟨g, List.mem_cons_of_mem _ hg, hmem⟩
    | [d], hkv =>
      rcases List.mem_cons.mp hkv with rfl | h2
      · exact ⟨[d], List.mem_cons_self _ _, List.mem_singleton.mpr rfl⟩
      · obtain ⟨g, hg, hmem⟩ := ih kv h2
        exact ⟨g, List.mem_cons_of_mem _ hg, hmem⟩
    | d :: d' :: ds, hkv =>
      rcases List.mem_cons.mp hkv with rfl | h2
      · exact ⟨d :: d' :: ds, List.mem_cons_self _ _,
          resolveConflict_fst_mem k₀ (by simp)⟩
      · obtain ⟨g, hg, hmem⟩ := ih kv h2
        exact ⟨g, List.mem_cons_of_mem _ hg, hmem⟩

/-! ## Claim theorems -/

/-- Claim C3 (corrected): the resolved mapping's keys are pairwise
distinct, and each resolved record is stored under its GROUPING id —
`session.get("session_id") or session.get("id")` — which equals the
record's `session_id` field whenever that field is truthy. When the
`session_id` field is the empty string the key is the preserved `id`
field instead, so "the mapped record's session_id equals its key" does
not hold in general (see the counterexample). -/
theorem resolved_keys_nodup_and_gid_matched (pyHash : String → Nat) (now : String)
    (files : List MFile) :
    (((reconcileSessions (loadAll pyHash now initState files)).1).map Prod.fst).Nodup ∧
    ∀ kv ∈ (reconcileSessions (loadAll pyHash now initState files)).1,
      gidOf kv.2 = kv.1 ∧
      ((PyDict.getD kv.2 "session_id" JVal.jnull).truthy = true →
        PyDict.getD kv.2 "session_id" JVal.jnull = kv.1) := by
  have hM := sessionsById_loadAll pyHash now files initState
  have hne : groupsNonempty (loadAll pyHash now initState files).sessionsById := by
    rw [hM]
    exact groupsNonempty_groupAddAll _ _ (fun kv hkv => absurd hkv (List.not_mem_nil kv))
  have hwk : groupsWellKeyed (loadAll pyHash now initState files).sessionsById := by
    rw [hM]
    exact groupsWellKeyed_groupAddAll _ _ (fun kv hkv => absurd hkv (List.not_mem_nil kv))
  rw [reconcileSessions_fst]
  constructor
  · rw [winnersOf_keys hne, hM, keysOf_groupAddAll]
    exact nodup_insertNewAll _ _ List.nodup_nil
  · intro kv hkv
    obtain ⟨g, hg, hmem⟩ := winnersOf_mem kv hkv
    have hgid : gidOf kv.2 = kv.1 := hwk (kv.1, g) hg kv.2 hmem
    refine ⟨hgid, fun htr => ?_⟩
    rw [gidOf, pyOr, if_pos htr] at hgid
    exact hgid

/-- A file whose single session has an empty `session_id` but a truthy
preserved `id` field: it gets grouped under `"x"` while its
`session_id` field stays `""`. -/
def mismatchFile : MFile :=
  { path := "claude_usage_mac1.json", stem := "claude_usage_mac1", parentName := "sync",
    inSubdir := false, mtime := 10,
    content := .parsed (.jdict [("sessions",
      .jlist [.jdict [("session_id", JVal.jstr ""), ("id", JVal.jstr "x")]])]) }

/-- Claim C3 counterexample: on `mismatchFile` the resolved mapping has
the single key `"x"` whose record's `session_id` field is `""`, so a
mapped record's `session_id` need not equal its key. -/
theorem resolved_key_differs_from_session_id :
    ((reconcileSessions (loadAll (fun _ => 0) "NOW" initState [mismatchFile])).1).map
      Prod.fst = [JVal.jstr "x"] ∧
    ((reconcileSessions (loadAll (fun _ => 0) "NOW" initState [mismatchFile])).1).map
      (fun kv => PyDict.getD kv.2 "session_id" JVal.jnull) = [JVal.jstr ""] ∧
    JVal.jstr "" ≠ JVal.jstr "x" :=
  ⟨by decide, by decide, by decide⟩

/-- Claim C5 (corrected): the resolved session count never exceeds the
sum of the files' normalized session counts, and equals that sum exactly
when every stored session has a truthy grouping id AND no grouping id
repeats. The claim's condition "no session_id repeats" is not enough:
a session whose `session_id` stringifies falsy is counted by its file's
normalized count but never grouped (see the counterexample). -/
theorem resolved_count_conservation (pyHash : String → Nat) (now : String)
    (files : List MFile) :
    ((reconcileSessions (loadAll pyHash now initState files)).1).length ≤
      (files.map (normalizedCount now)).sum ∧
    (((reconcileSessions (loadAll pyHash now initState files)).1).length =
        (files.map (normalizedCount now)).sum ↔
      ((∀ f ∈ files, ∀ s ∈ fileStored pyHash now f, (gidOf s).truthy = true) ∧
        (runGids pyHash now files).Nodup)) := by
  have hM := sessionsById_loadAll pyHash now files initState
  have hne : groupsNonempty (loadAll pyHash now initState files).sessionsById := by
    rw [hM]
    exact groupsNonempty_groupAddAll _ _ (fun kv hkv => absurd hkv (List.not_mem_nil kv))
  have hres : ((reconcileSessions (loadAll pyHash now initState files)).1).length =
      (insertNewAll [] (runGids pyHash now files)).length := by
    rw [reconcileSessions_fst, winnersOf_length hne]
    have hk : (keysOf (loadAll pyHash now initState files).sessionsById).length =
        (loadAll pyHash now initState files).sessionsById.length := List.length_map _ _
    rw [← hk, hM, keysOf_groupAddAll]
    rfl
  have hgl : (runGids pyHash now files).length = (runStored pyHash now files).length :=
    List.length_map _ _
  have hrs := runStored_length pyHash now files
  have hle : (insertNewAll [] (runGids pyHash now files)).length ≤
      (runGids pyHash now files).length := by
    have h := length_insertNewAll_le (runGids pyHash now files) []
    simpa using h
  constructor
  · rw [hres]
    omega
  · rw [hres]
    constructor
    · intro heq
      have hin : (insertNewAll [] (runGids pyHash now files)).length =
          (runGids pyHash now files).length := by omega
      have hsum : (runStored pyHash now files).length =
          (files.map (normalizedCount now)).sum := by omega
      refine ⟨hrs.2.mp hsum, ?_⟩
      exact (length_insertNewAll_eq_rev (runGids pyHash now files) [] (by simpa using hin)).2
    · rintro ⟨hall, hnd⟩
      have hsum := hrs.2.mpr hall
      have hin : (insertNewAll [] (runGids pyHash now files)).length =
          (runGids pyHash now files).length := by
        have h := length_insertNewAll_eq (runGids pyHash now files) [] (by simp) hnd
        simpa using h
      omega

/-- A file whose single normalized session has the empty string as
`session_id` and no other id field: it is counted but never grouped. -/
def emptyIdFile : MFile :=
  { path := "claude_usage_mac1.json", stem := "claude_usage_mac1", parentName := "sync",
    inSubdir := false, mtime := 10,
    content := .parsed (.jdict [("sessions",
      .jlist [.jdict [("session_id", JVal.jstr "")]])]) }

/-- Claim C5 counterexample: one file, one normalized session (count 1,
and with a single record no `session_id` can repeat), yet the resolved
mapping is empty — the claimed equality `resolved = sum` fails because
the record's falsy `session_id` keeps it out of every group. -/
theorem conservation_equality_fails :
    ([emptyIdFile].map (normalizedCount "NOW")).sum = 1 ∧
    (fileStored (fun _ => 0) "NOW" emptyIdFile).length = 1 ∧
    ((reconcileSessions (loadAll (fun _ => 0) "NOW" initState [emptyIdFile])).1).length = 0 ∧
    (0 : Nat) ≠ 1 :=
  ⟨by decide, by decide, by decide, by decide⟩

/-- Claim C7 (confirmed): a file that parses to a non-mapping top level
contributes exactly one `unknown_error` Error record and nothing else —
no session groups, no machine stat, no conflict — and the loading loop
goes on to the remaining files. -/
theorem load_non_mapping_records_unknown_error (pyHash : String → Nat) (now : String)
    (st : RState) (f : MFile) (d : JVal)
    (hp : f.content = ParseResult.parsed d) (hnd : d.isDict = false) :
    (loadMachineData pyHash now st f).errors =
      st.errors ++ [⟨f.path, loadNonDictErrorMsg d, "unknown_error"⟩] ∧
    (loadMachineData pyHash now st f).sessionsById = st.sessionsById ∧
    (loadMachineData pyHash now st f).machineStats = st.machineStats ∧
    (loadMachineData pyHash now st f).conflicts = st.conflicts ∧
    ∀ fs : List MFile, loadAll pyHash now st (f :: fs) =
      loadAll pyHash now (loadMachineData pyHash now st f) fs := by
  have h1 : loadMachineData pyHash now st f =
      { st with errors := st.errors ++ [⟨f.path, loadNonDictErrorMsg d, "unknown_error"⟩] } := by
    obtain ⟨path, stem, parentName, inSubdir, mtime, content⟩ := f
    simp only at hp
    subst hp
    cases d with
    | jdict entries => exact absurd hnd (by simp [JVal.isDict])
    | jnull => rfl
    | jbool b => rfl
    | jint n => rfl
    | jstr s => rfl
    | jlist xs => rfl
  exact ⟨by rw [h1], by rw [h1], by rw [h1], by rw [h1], fun fs => rfl⟩

/-- Witness for `load_non_mapping_records_unknown_error` on a concrete
file whose top level is a list. -/
theorem load_non_mapping_records_unknown_error_witness :
    (loadMachineData (fun _ => 0) "NOW" initState nonMappingFile).errors =
      initState.errors ++
        [⟨nonMappingFile.path, loadNonDictErrorMsg (.jlist []), "unknown_error"⟩] ∧
    (loadMachineData (fun _ => 0) "NOW" initState nonMappingFile).sessionsById =
      initState.sessionsById ∧
    (loadMachineData (fun _ => 0) "NOW" initState nonMappingFile).machineStats =
      initState.machineStats ∧
    (loadMachineData (fun _ => 0) "NOW" initState nonMappingFile).conflicts =
      initState.conflicts ∧
    ∀ fs : List MFile, loadAll (fun _ => 0) "NOW" initState (nonMappingFile :: fs) =
      loadAll (fun _ => 0) "NOW" (loadMachineData (fun _ => 0) "NOW" initState nonMappingFile) fs :=
  load_non_mapping_records_unknown_error (fun _ => 0) "NOW" initState nonMappingFile
    (.jlist []) rfl rfl

/-- Claim C8 (code bug): the last-resort machine id is
`"unknown_" + str(hash(str(path)) % 10000)`, where `hash` is CPython's
per-process salted string hash; two runs of the same file under
different hash seeds (modelled by the two hash oracles) derive different
machine ids for the same path, so the id is not a deterministic function
of the path alone, contrary to the claim. -/
theorem machineId_fallback_depends_on_hash_seed :
    extractMachineId (fun _ => 0) hashFallbackFile [] = JVal.jstr "unknown_0" ∧
    extractMachineId (fun _ => 1) hashFallbackFile [] = JVal.jstr "unknown_1" ∧
    JVal.jstr "unknown_0" ≠ JVal.jstr "unknown_1" :=
  ⟨rfl, rfl, by decide⟩

/-- Claim C4 (code bug): `main` parses `--dry-run` but never forwards it
to the reconciler, so a dry run still performs the full computation AND
writes all three artifacts; the report is returned as in a normal run,
but the "no artifact is written" half of the claim fails against the
code (the flag only gates a printed message). -/
theorem dry_run_flag_does_not_suppress_artifacts (pyHash : String → Nat) (now ts : String)
    (files : List MFile) :
    (mainRun true pyHash now ts files).1 = (reconcile pyHash now ts files).1 ∧
    ((mainRun true pyHash now ts files).2).map Artifact.name =
      ["reconciled_sessions_" ++ ts ++ ".json",
       "reconciliation_report_" ++ ts ++ ".json",
       "reconciliation_summary_" ++ ts ++ ".txt"] :=
  ⟨rfl, rfl⟩

/-- Claim C2 (code bug): the completeness count of `_resolve_conflict`
tests `str(v).startswith` on the VALUE instead of the key (contrast the
key-based test in `_normalize_session`), so it is not the count of
non-empty non-provenance fields: on this group the record with the
extra truthy `note` field has the strictly larger non-provenance field
count (4 vs 3), yet the resolver selects the other record (the
underscore-prefixed value of `note` is not counted, leaving a tie broken
by tokens, 150 vs 100). -/
theorem mostComplete_counts_values_not_keys :
    (resolveConflict (JVal.jstr "s") [dupExtraField, dupMoreTokens]).1 = dupMoreTokens ∧
    (resolveConflict (JVal.jstr "s") [dupExtraField, dupMoreTokens]).2.resolution =
      "most_complete_record" ∧
    specFieldCount dupMoreTokens < specFieldCount dupExtraField ∧
    fieldCount dupExtraField = fieldCount dupMoreTokens := by
  refine ⟨by decide, by decide, by decide, by decide⟩

/-- Claim C9 (code bug): the defensive `most_recent` fallback of
`_resolve_conflict` IS reachable: on this non-empty group whose key
fields disagree (the two `model` values differ), every duplicate has
completeness count 0 and zero tokens, the loop never selects a
candidate, and the resolver falls through to `most_recent` — a
consequence of the same value-based underscore test (under the spec's
key-based count the always-truthy `model` field would guarantee a
candidate). -/
theorem mostRecent_fallback_reachable :
    (resolveConflict (JVal.jstr "_s") [dupAllUnderscoreA, dupAllUnderscoreB]).2.resolution =
      "most_recent" ∧
    areDuplicatesIdentical (sortByMtimeDesc [dupAllUnderscoreA, dupAllUnderscoreB]) = false ∧
    bestDuplicate (sortByMtimeDesc [dupAllUnderscoreA, dupAllUnderscoreB]) = none := by
  refine ⟨by decide, by decide, ?_⟩
  decide
